import Mathlib

/-!
Verification of the trace-to-graph construction and structural analysis engine
of the DAO-Proposal-Auditor repository.

The Python sources are shallowly embedded:
* `src/graph/graph_builder.py` — `GraphBuilder.build_graph`,
  `calculate_graph_depth`, `calculate_graph_breadth`, `identify_central_nodes`,
  `identify_contract`, `identify_function_semantic`, `extract_call_paths`,
  `generate_description`, and the static tables `KNOWN_CONTRACTS`,
  `FUNCTION_PATTERNS`.
* `src/auditor/auditor.py` — `SYSTEM_CONTRACTS`, `is_system_contract`,
  `get_system_contract_description`.
* `src/simulator/simulator.py` — the recursive trace traversals in
  `extract_calls_and_transfers` and `_extract_calls_from_call_tracer`.

Python `dict`s keyed by strings are modelled as association lists in insertion
order (CPython dicts iterate in insertion order), Python `set`s of strings as
duplicate-free lists in insertion order together with an explicit iteration
"order oracle" (CPython gives no guarantee on set iteration order: it depends
on the per-process string hash seed), and machine-level loops as step functions
on explicit state records driven by fuel, with the `while queue:` early exit of
the source mirrored so that a run stops exactly when the loop would.
-/

/-! ### Python string primitives

Python strings are modelled as Lean `String`; the handful of Python string
operations used by the sources are defined over the underlying character
lists so that they are easy to evaluate and to reason about. -/

/-- Python `s.lower()`: characterwise lowercasing. -/
def pyLower (s : String) : String := ⟨s.data.map Char.toLower⟩

/-- Python `s.startswith(p)`. -/
def pyStartsWith (s p : String) : Bool := p.data.isPrefixOf s.data

/-- Helper for substring containment over character lists. -/
def listContainsSub (sub : List Char) : List Char → Bool
  | [] => sub.isEmpty
  | c :: rest => sub.isPrefixOf (c :: rest) || listContainsSub sub rest

/-- Python `sub in s` (substring containment). -/
def pyContains (s sub : String) : Bool := listContainsSub sub.data s.data

/-- Python `s[:n]` (first `n` characters). -/
def pyTake (s : String) (n : Nat) : String := ⟨s.data.take n⟩

/-- Python `s[-n:]` (last `n` characters), for `0 < n ≤ len(s)`. -/
def pyLastN (s : String) (n : Nat) : String := ⟨s.data.drop (s.data.length - n)⟩

/-- Python `s[-1]` (last character); the sources only evaluate it on non-empty
strings, the default is irrelevant. -/
def pyLastChar (s : String) : Char := s.data.getLastD ' '

/-- Python `len(s)`. -/
def pyLen (s : String) : Nat := s.data.length

/-- Python `s.split("(")[0] if "(" in s else s`: the characters before the
first opening parenthesis. Both `identify_function_semantic` and
`generate_description` extract function names this way. -/
def funcNameOf (s : String) : String :=
  if s.data.contains '(' then ⟨s.data.takeWhile (fun c => c ≠ '(')⟩ else s

/-! ### Python dict / set / Counter primitives -/

/-- Python `d.get(k)` on a string-keyed dict modelled as an association list. -/
def pyDictGet (d : List (String × String)) (k : String) : Option String :=
  (d.find? (fun p => p.1 = k)).map (fun p => p.2)

/-- Python `k in d` on a string-keyed dict. -/
def pyDictMem (d : List (String × String)) (k : String) : Bool :=
  d.any (fun p => p.1 = k)

/-- Python `set.add` on a set modelled as a duplicate-free list in insertion
order. -/
def pySetAdd (s : List String) (x : String) : List String :=
  if x ∈ s then s else s ++ [x]

/-- Python `set(l)` on a list of strings: the distinct elements. The model
keeps first-occurrence order as the canonical representative; iteration order
is supplied separately by an order oracle. -/
def pySetOf (l : List String) : List String :=
  l.foldl pySetAdd []

/-- `collections.Counter` update `c[k] += 1`, keys in first-encountered
order (CPython dicts preserve insertion order). -/
def counterAdd (c : List (String × Nat)) (k : String) : List (String × Nat) :=
  if c.any (fun p => p.1 = k) then
    c.map (fun p => if p.1 = k then (p.1, p.2 + 1) else p)
  else
    c ++ [(k, 1)]

/-- Count associated with key `k` in a counter (0 when absent). -/
def counterGet (c : List (String × Nat)) (k : String) : Nat :=
  ((c.find? (fun p => p.1 = k)).map (fun p => p.2)).getD 0

/-- Stable insertion of a key/count pair into a list sorted by descending
count: the pair goes after every pair whose count is `≥` its own. -/
def insertDesc (x : String × Nat) : List (String × Nat) → List (String × Nat)
  | [] => [x]
  | y :: ys => if x.2 ≤ y.2 then y :: insertDesc x ys else x :: y :: ys

/-- `Counter.most_common()`: stable sort by descending count (CPython's
`most_common` is equivalent to `sorted(items, key=count, reverse=True)`,
which is stable, so ties keep insertion order). -/
def mostCommon (c : List (String × Nat)) : List (String × Nat) :=
  c.foldl (fun acc x => insertDesc x acc) []

/-- Pointwise update of a function-modelled Python dict (`d[k] = v`). -/
def updateFn (d : String → Nat) (k : String) (v : Nat) : String → Nat :=
  fun x => if x = k then v else d x

/-- Update of a `Nat`-keyed dict of lists (`defaultdict(list)` with append). -/
def updateLevels (lv : Nat → List String) (k : Nat) (v : List String) :
    Nat → List String :=
  fun x => if x = k then v else lv x

/-! ### Data model: trace documents (`trace_report.json`)

`CallEntry` is one element of the `calls` array consumed by
`GraphBuilder.build_graph`; each field models `call.get(key)` with `none`
for an absent key. -/

structure CallEntry where
  from_ : Option String := none
  to_ : Option String := none
  type : Option String := none
  function_signature : Option String := none
  function_selector : Option String := none
  value : Option Int := none
  depth : Option Nat := none
  deriving DecidableEq, Repr

/-- The `trace_summary` / `summary` object: the model keeps the only key the
analysed code reads (`calls`, defaulting to `[]` when absent). -/
structure Summary where
  calls : List CallEntry := []
  deriving DecidableEq, Repr

/-- The `original_transaction` / `trace` objects: only `from` / `to` are
read (with default `"unknown"`). -/
structure TxInfo where
  from_ : Option String := none
  to_ : Option String := none
  deriving DecidableEq, Repr

/-- A parsed `trace_report.json`. An `Option` field is `none` when the key is
absent or its value is an empty (hence falsy) dict: the source only tests
these objects for truthiness and reads keys with defaults, so an empty dict
behaves exactly like an absent one in `get_trace_summary` and
`generate_description`. -/
structure TraceData where
  trace_summary : Option Summary := none
  summary : Option Summary := none
  original_transaction : Option TxInfo := none
  trace : Option TxInfo := none
  deriving DecidableEq, Repr

/-- `GraphBuilder.get_trace_summary`:
`self.trace_data.get("trace_summary") or self.trace_data.get("summary", {})`. -/
def get_trace_summary (td : TraceData) : Summary :=
  match td.trace_summary with
  | some ts => ts
  | none => td.summary.getD {}

/-- The call list the builder iterates over: `trace_summary.get("calls", [])`. -/
def getCalls (td : TraceData) : List CallEntry :=
  (get_trace_summary td).calls

/-! ### Data model: the multigraph (`networkx.MultiDiGraph`) -/

/-- One edge of the multigraph, carrying the attributes stored by
`build_graph` (`type`, `function`, `value`, `depth`). -/
structure Edge where
  src : String
  dst : String
  type : String
  function : String
  value : Int
  depth : Nat
  deriving DecidableEq, Repr

/-- `networkx.MultiDiGraph`, modelled by its node list in insertion order
(node labels equal the node names, so the `label` attribute is not kept
separately) and its edge list in insertion order; parallel edges are distinct
list entries. -/
structure MultiDiGraph where
  nodes : List String := []
  edges : List Edge := []
  deriving DecidableEq, Repr

/-- `graph.has_node(n)`. -/
def MultiDiGraph.has_node (g : MultiDiGraph) (n : String) : Bool :=
  g.nodes.contains n

/-- `graph.add_node(n)` (the source guards it with `has_node`, so insertion
order is first-seen order). -/
def MultiDiGraph.add_node (g : MultiDiGraph) (n : String) : MultiDiGraph :=
  { g with nodes := g.nodes ++ [n] }

/-- `graph.add_edge(u, v, **attrs)`. -/
def MultiDiGraph.add_edge (g : MultiDiGraph) (e : Edge) : MultiDiGraph :=
  { g with edges := g.edges ++ [e] }

/-- `graph.number_of_nodes()`. -/
def MultiDiGraph.number_of_nodes (g : MultiDiGraph) : Nat := g.nodes.length

/-- `graph.number_of_edges()`. -/
def MultiDiGraph.number_of_edges (g : MultiDiGraph) : Nat := g.edges.length

/-- `graph.in_degree(n)` on a `MultiDiGraph`: the number of incoming edges,
parallel edges counted individually. -/
def MultiDiGraph.in_degree (g : MultiDiGraph) (n : String) : Nat :=
  (g.edges.filter (fun e => e.dst = n)).length

/-- `graph.successors(n)`: the distinct successor nodes of `n`, in the order
each one was first added to `n`'s adjacency (networkx keeps adjacency dicts
in insertion order). -/
def MultiDiGraph.successors (g : MultiDiGraph) (n : String) : List String :=
  g.edges.foldl
    (fun acc e => if e.src = n ∧ e.dst ∉ acc then acc ++ [e.dst] else acc) []

/-- `graph.edges(data=True)` iteration order on a `MultiDiGraph`: all nodes in
insertion order, for each node its successors in adjacency order, for each
successor the parallel edges in key order (= insertion order). -/
def MultiDiGraph.edgesIter (g : MultiDiGraph) : List Edge :=
  g.nodes.flatMap (fun u =>
    (g.successors u).flatMap (fun v =>
      g.edges.filter (fun e => e.src = u ∧ e.dst = v)))

/-! ### `GraphBuilder.build_graph` (graph_builder.py lines 137–188) -/

/-- The body of the `for call in calls:` loop of `build_graph`: canonicalise
both endpoints to lower case, drop the record when either is empty, insert
missing nodes, then always insert a fresh edge. -/
def addCall (g : MultiDiGraph) (call : CallEntry) : MultiDiGraph :=
  let from_addr := pyLower (call.from_.getD "")
  let to_addr := pyLower (call.to_.getD "")
  let call_type := call.type.getD "CALL"
  let function := call.function_signature.getD (call.function_selector.getD "unknown")
  let value := call.value.getD 0
  let depth := call.depth.getD 0
  if from_addr = "" ∨ to_addr = "" then g
  else
    let g := if g.has_node from_addr then g else g.add_node from_addr
    let g := if g.has_node to_addr then g else g.add_node to_addr
    g.add_edge ⟨from_addr, to_addr, call_type, function, value, depth⟩

/-- `GraphBuilder.build_graph`: start from a fresh `MultiDiGraph`; when the
call list is empty return it unchanged, otherwise fold the loop body over the
calls. -/
def build_graph (td : TraceData) : MultiDiGraph :=
  let calls := getCalls td
  if calls.isEmpty then {} else calls.foldl addCall {}

/-! ### Static knowledge tables (graph_builder.py lines 31–64) -/

/-- `KNOWN_CONTRACTS` (graph_builder.py lines 31–52), in source order. -/
def KNOWN_CONTRACTS : List (String × String) := [
  ("0x3e5c63644e683549055b9be8653de26e0b4cd36e", "Gnosis Safe: Proxy Factory"),
  ("0xd9db270c1b5e3bd161e8c8503c55ceabee709552", "Gnosis Safe: Master Copy"),
  ("0xa6b71e26c5e0845f74c812102ca7114b6a896ab2", "Gnosis Safe: Proxy Factory v1.3.0"),
  ("0xf07ded9dc292157749b6fd268e37df6ea38395b9", "Arbitrum Governor"),
  ("0xb4c064f466931b8d0f637654c916e3f203c46f13", "Arbitrum Governor (Proposer)"),
  ("0x408ed6354d4973f66138c91495f2f2fcbd8724c3", "Uniswap Governor"),
  ("0x0000000000000000000000000000000000000001", "Ethereum Precompile: ECRecover"),
  ("0x0000000000000000000000000000000000000002", "Ethereum Precompile: SHA256"),
  ("0x0000000000000000000000000000000000000003", "Ethereum Precompile: RIPEMD160"),
  ("0x0000000000000000000000000000000000000004", "Ethereum Precompile: Identity"),
  ("0x0000000000000000000000000000000000000005", "Ethereum Precompile: ModExp"),
  ("0x0000000000000000000000000000000000000064", "Arbitrum: L1 ArbSys"),
  ("0x0000000000000000000000000000000000000065", "Arbitrum: L2 ArbSys")]

/-- `FUNCTION_PATTERNS` (graph_builder.py lines 55–64), in source order (dict
iteration order is insertion order, so first match wins in this order). -/
def FUNCTION_PATTERNS : List (String × String) := [
  ("execTransaction", "Gnosis Safe: Multi-sig execution"),
  ("propose", "Governor: Proposal creation"),
  ("execute", "Governor: Proposal execution"),
  ("castVote", "Governor: Voting"),
  ("getPastVotes", "Governor: Vote weight query"),
  ("delegate", "Governor: Delegation"),
  ("upgradeTo", "Proxy: Upgrade"),
  ("upgradeToAndCall", "Proxy: Upgrade and call")]

/-- `GraphBuilder.identify_contract` (lines 325–336):
`KNOWN_CONTRACTS.get(address.lower())`. -/
def identify_contract (address : String) : Option String :=
  pyDictGet KNOWN_CONTRACTS (pyLower address)

/-- `GraphBuilder.identify_function_semantic` (lines 338–358): first pattern
of `FUNCTION_PATTERNS` whose lowercased name occurs in the lowercased
function name extracted from the signature. -/
def identify_function_semantic (function_signature : String) : Option String :=
  if function_signature = "" ∨ function_signature = "unknown" then none
  else
    let func_name := funcNameOf function_signature
    (FUNCTION_PATTERNS.find? (fun p =>
      pyContains (pyLower func_name) (pyLower p.1))).map (fun p => p.2)

/-! ### `GraphBuilder.calculate_graph_depth` (graph_builder.py lines 190–248)

The `while queue:` loop is embedded as a step function on an explicit state
record, iterated under fuel with the loop's exit condition checked first, so
a run with enough fuel stops exactly where the Python loop stops.  The
`depths` dict is modelled as a total function defaulting to `0` (the source
reads it as `depths.get(successor, 0)`, and `depths[current]` is only reached
for keys that were previously assigned).  The `visited_in_path` set is a
duplicate-free list. -/

structure DState where
  queue : List String
  depths : String → Nat
  visited : List String
  maxDepth : Nat

/-- The inner `for successor in self.graph.successors(current):` loop of
`calculate_graph_depth`.  Self-loops are skipped; a successor that is already
visited and not strictly improved is skipped; otherwise its depth is
overwritten with `current_depth + 1` and it is enqueued unless already
visited.  (Lines 231–233 of the source also compute `edge_depths` and
`max_edge_depth` from the parallel-edge attributes, but never use them; the
dead computation is omitted.) -/
def procSuccs (cd : Nat) (current : String) (vis : List String) :
    List String → (String → Nat) → List String → ((String → Nat) × List String)
  | [], d, q => (d, q)
  | succ :: rest, d, q =>
    if succ = current then procSuccs cd current vis rest d q
    else if succ ∈ vis ∧ cd + 1 ≤ d succ then procSuccs cd current vis rest d q
    else
      procSuccs cd current vis rest (updateFn d succ (cd + 1))
        (if succ ∈ vis then q else q ++ [succ])

/-- One iteration of the `while queue:` loop of `calculate_graph_depth`
(assuming a non-empty queue): pop the front, mark it visited, process its
successors, and fold its recorded depth into `max_depth`. -/
def depthStep (g : MultiDiGraph) (s : DState) : DState :=
  match s.queue with
  | [] => s
  | current :: rest =>
    let current_depth := s.depths current
    let vis := pySetAdd s.visited current
    let (d, q) := procSuccs current_depth current vis (g.successors current) s.depths rest
    ⟨q, d, vis, max s.maxDepth current_depth⟩

/-- Fuel-driven iteration of `depthStep` with the `while queue:` exit tested
first: once the queue is empty the loop has genuinely terminated. -/
def runDepth (g : MultiDiGraph) : Nat → DState → DState
  | 0, s => s
  | n + 1, s =>
    match s.queue with
    | [] => s
    | _ :: _ => runDepth g n (depthStep g s)

/-- Fuel sufficient for the depth loop to reach its exit condition on a
well-formed graph: an upper bound on the number of loop iterations, proved
below (`runDepth_terminates`). -/
def depthFuel (g : MultiDiGraph) : Nat :=
  (g.nodes.length + 1) ^ (2 * g.nodes.length)

/-- The start states of `calculate_graph_depth` / `calculate_graph_breadth`:
all in-degree-zero nodes, or every node when none exists. -/
def rootNodes (g : MultiDiGraph) : List String :=
  let in_degree_zero := g.nodes.filter (fun n => g.in_degree n = 0)
  if in_degree_zero.isEmpty then g.nodes else in_degree_zero

/-- The initial state of one BFS run of `calculate_graph_depth`
(`depths = {start_node: 0}`, queue `[start_node]`, empty visited set), with
the `max_depth` accumulator carried across root runs. -/
def initDState (start : String) (m : Nat) : DState :=
  ⟨[start], updateFn (fun _ => 0) start 0, [], m⟩

/-- `GraphBuilder.calculate_graph_depth` on a built graph: 0 for an empty
graph, otherwise one bounded BFS-relaxation run per root with a shared
`max_depth` accumulator.  (The source wraps each run in `try/except`; no
exception is reachable in the loop body, so the handler is dead.) -/
def calculate_graph_depth (g : MultiDiGraph) : Nat :=
  if g.number_of_nodes = 0 then 0
  else
    (rootNodes g).foldl
      (fun m start => (runDepth g (depthFuel g) (initDState start m)).maxDepth) 0

/-! ### `GraphBuilder.calculate_graph_breadth` (graph_builder.py lines 250–299) -/

structure BState where
  queue : List (String × Nat)
  levels : Nat → List String
  visited : List String
  maxBreadth : Nat

/-- The inner successor loop of `calculate_graph_breadth`: skip self-loops,
and for each unvisited successor mark it visited, append it to the next
level, and enqueue it with that level. -/
def procSuccsB (level : Nat) (current : String) :
    List String → List String → (Nat → List String) → List (String × Nat) →
    (List String × (Nat → List String) × List (String × Nat))
  | [], vis, lv, q => (vis, lv, q)
  | succ :: rest, vis, lv, q =>
    if succ = current then procSuccsB level current rest vis lv q
    else if succ ∈ vis then procSuccsB level current rest vis lv q
    else
      procSuccsB level current rest (vis ++ [succ])
        (updateLevels lv (level + 1) (lv (level + 1) ++ [succ]))
        (q ++ [(succ, level + 1)])

/-- One iteration of the `while queue:` loop of `calculate_graph_breadth`. -/
def breadthStep (g : MultiDiGraph) (s : BState) : BState :=
  match s.queue with
  | [] => s
  | (current, level) :: rest =>
    let (vis, lv, q) :=
      procSuccsB level current (g.successors current) s.visited s.levels rest
    ⟨q, lv, vis, max s.maxBreadth (lv level).length⟩

/-- Fuel-driven iteration of `breadthStep` with the loop exit tested first. -/
def runBreadth (g : MultiDiGraph) : Nat → BState → BState
  | 0, s => s
  | n + 1, s =>
    match s.queue with
    | [] => s
    | _ :: _ => runBreadth g n (breadthStep g s)

/-- Fuel sufficient for the breadth BFS (each iteration either pops without
appending or marks new nodes visited; proved in `runBreadth_terminates`). -/
def breadthFuel (g : MultiDiGraph) : Nat := 2 * g.nodes.length + 1

/-- The initial state of one BFS run of `calculate_graph_breadth`:
`levels = {0: [start]}`, `visited = {start}`, queue `[(start, 0)]`, with the
`max_breadth` accumulator carried across root runs. -/
def initBState (start : String) (m : Nat) : BState :=
  ⟨[(start, 0)], fun l => if l = 0 then [start] else [], [start], m⟩

/-- `GraphBuilder.calculate_graph_breadth` on a built graph. -/
def calculate_graph_breadth (g : MultiDiGraph) : Nat :=
  if g.number_of_nodes = 0 then 0
  else
    (rootNodes g).foldl
      (fun m start => (runBreadth g (breadthFuel g) (initBState start m)).maxBreadth) 0

/-! ### `GraphBuilder.identify_central_nodes` (graph_builder.py lines 301–323) -/

/-- The in-degree counter of `identify_central_nodes`: every node of the
graph in insertion order, kept when its in-degree is positive.  (Counter keys
appear in first-insertion order, which here is node insertion order.) -/
def inDegreeCounter (g : MultiDiGraph) : List (String × Nat) :=
  g.nodes.foldl
    (fun c node =>
      let d := g.in_degree node
      if 0 < d then c ++ [(node, d)] else c) []

/-- `GraphBuilder.identify_central_nodes`: the `top_k` most-called nodes,
`Counter.most_common(top_k)` being a stable descending sort by count followed
by truncation. -/
def identify_central_nodes (g : MultiDiGraph) (top_k : Nat := 5) :
    List (String × Nat) :=
  (mostCommon (inDegreeCounter g)).take top_k

/-! ### `GraphBuilder.extract_call_paths` (graph_builder.py lines 360–398) -/

/-- Python `max` over a list of naturals (only applied to non-empty lists in
the source, where the fold with `0` agrees with `max`). -/
def maxList (l : List Nat) : Nat := l.foldl max 0

/-- The `important_functions` list of `extract_call_paths` (line 391). -/
def importantFunctions : List String :=
  ["execTransaction", "propose", "execute", "upgradeTo"]

/-- `GraphBuilder.extract_call_paths`: one representative group of calls at
the maximal tracer-reported depth (first three, in call order), then single
calls whose signature contains an important function name, while fewer than
`max_paths` paths have been collected.  (The method first returns `[]` when
the graph or the trace data is missing; the method-level wrapper below models
that guard.) -/
def extract_call_paths (td : TraceData) (max_paths : Nat := 3) :
    List (List CallEntry) :=
  let calls := getCalls td
  let paths : List (List CallEntry) :=
    if calls.isEmpty then []
    else
      let max_depth := maxList (calls.map (fun c => c.depth.getD 0))
      [(calls.filter (fun c => c.depth.getD 0 = max_depth)).take 3]
  let paths := calls.foldl
    (fun ps call =>
      let func := call.function_signature.getD ""
      if importantFunctions.any (fun imp => pyContains func imp) then
        if ps.length < max_paths then ps ++ [[call]] else ps
      else ps) paths
  paths.take max_paths

/-! ### `GraphBuilder.generate_description` (graph_builder.py lines 400–593)

The composition is almost entirely over insertion-ordered dicts and counters,
which CPython iterates deterministically.  The two exceptions iterate Python
`set`s of strings (`list(funcs)[:3]` on the per-address function sets, lines
509/513, and `', '.join(set(delegatecall_info))`, line 558), whose iteration
order depends on the per-process string hash seed; the embedding makes that
implementation-defined order explicit as a `setOrder` oracle mapping the
canonical (insertion-ordered) contents of a set to the order iteration
yields. -/

/-- `address_functions` update: `address_functions[to_addr].add(func_name)`
on a `defaultdict(set)` (keys in insertion order, each value a set). -/
def afAdd (af : List (String × List String)) (k fn : String) :
    List (String × List String) :=
  if af.any (fun p => p.1 = k) then
    af.map (fun p => if p.1 = k then (p.1, pySetAdd p.2 fn) else p)
  else af ++ [(k, [fn])]

/-- `address_functions.get(node.lower(), set())`. -/
def afGet (af : List (String × List String)) (k : String) : List String :=
  ((af.find? (fun p => p.1 = k)).map (fun p => p.2)).getD []

/-- The fold of `generate_description` lines 463–474 building the
`function_calls` counter and the `address_functions` map. -/
def functionStats (calls : List CallEntry) :
    List (String × Nat) × List (String × List String) :=
  calls.foldl
    (fun acc call =>
      let func := call.function_signature.getD (call.function_selector.getD "unknown")
      if func ≠ "" ∧ func ≠ "unknown" then
        let func_name := funcNameOf func
        let fc := counterAdd acc.1 func_name
        let to_addr_call := pyLower (call.to_.getD "")
        let af := if to_addr_call ≠ "" then afAdd acc.2 to_addr_call func_name else acc.2
        (fc, af)
      else acc)
    ([], [])

/-- The `call_types` counter (lines 490–493), built over the graph's edges in
`graph.edges(data=True)` iteration order; every edge stores a `type`
attribute, so the `data.get("type", "CALL")` default is never used on a built
graph. -/
def callTypesCounter (g : MultiDiGraph) : List (String × Nat) :=
  g.edgesIter.foldl (fun ct e => counterAdd ct e.type) []

/-- The "initiating call" endpoints (lines 421–441): prefer
`original_transaction`, then `trace`, then the first call, else "unknown". -/
def initiatingEndpoints (td : TraceData) : String × String :=
  match td.original_transaction with
  | some ot => (ot.from_.getD "unknown", ot.to_.getD "unknown")
  | none =>
    match td.trace with
    | some ti => (ti.from_.getD "unknown", ti.to_.getD "unknown")
    | none =>
      match getCalls td with
      | first_call :: _ =>
        (first_call.from_.getD "unknown", first_call.to_.getD "unknown")
      | [] => ("unknown", "unknown")

/-- `GraphBuilder.generate_description`, as a pure function of the built
graph, the trace data, and the set-iteration order oracle. -/
def generate_description (g : MultiDiGraph) (td : TraceData)
    (setOrder : List String → List String) : String :=
  let num_nodes := g.number_of_nodes
  let num_edges := g.number_of_edges
  let graph_depth := calculate_graph_depth g
  let graph_breadth := calculate_graph_breadth g
  let central_nodes := identify_central_nodes g 5
  let (from_addr, to_addr) := initiatingEndpoints td
  let from_contract := identify_contract from_addr
  let to_contract := identify_contract to_addr
  let from_desc := from_contract.getD ("地址 " ++ from_addr)
  let to_desc := to_contract.getD ("合约 " ++ to_addr)
  let part_opening :=
    "该提案启动后，首先由 " ++ from_desc ++ " (" ++ from_addr ++ ") 调用了 " ++
      to_desc ++ " (" ++ to_addr ++ ")。"
  let calls := getCalls td
  let (function_calls, address_functions) := functionStats calls
  let parts_functions : List String :=
    if function_calls.isEmpty then []
    else
      let important_functions := ((mostCommon function_calls).take 5).map
        (fun p =>
          match identify_function_semantic p.1 with
          | some sem => p.1 ++ " (" ++ sem ++ ", " ++ toString p.2 ++ "次)"
          | none => p.1 ++ " (" ++ toString p.2 ++ "次)")
      if important_functions.isEmpty then []
      else ["关键函数调用包括：" ++ String.intercalate ", " important_functions ++ "。"]
  let call_types := callTypesCounter g
  let parts_types : List String :=
    if call_types.isEmpty then []
    else
      ["调用类型包括：" ++
        String.intercalate ", "
          (call_types.map (fun p => p.1 ++ " " ++ toString p.2 ++ " 次")) ++ "。"]
  let parts_central : List String :=
    if central_nodes.isEmpty then []
    else
      let central_desc := central_nodes.map (fun p =>
        let node := p.1
        let funcs := afGet address_functions (pyLower node)
        let func_info :=
          if funcs.isEmpty then ""
          else "，调用函数：" ++ String.intercalate ", " ((setOrder funcs).take 3)
        match identify_contract node with
        | some contract_name =>
          contract_name ++ " (" ++ node ++ ")（被调用 " ++ toString p.2 ++ " 次" ++
            func_info ++ "）"
        | none =>
          let short_addr :=
            if 18 < pyLen node then pyTake node 10 ++ "..." ++ pyLastN node 8
            else node
          "合约 " ++ short_addr ++ " (" ++ node ++ ")（被调用 " ++ toString p.2 ++
            " 次" ++ func_info ++ "）")
      ["中心节点为：" ++ String.intercalate ", " central_desc ++ "。"]
  let part_structure :=
    "共涉及 " ++ toString num_nodes ++ " 个节点的 " ++ toString num_edges ++
      " 次交互，图的最大深度为 " ++ toString graph_depth ++ "，最大宽度为 " ++
      toString graph_breadth ++ "。"
  let call_paths := extract_call_paths td 2
  let parts_paths : List String :=
    if call_paths.isEmpty then []
    else
      let path_descriptions := call_paths.filterMap (fun path =>
        match path with
        | [] => none
        | first_call :: _ =>
          let from_p := pyTake (first_call.from_.getD "") 10 ++ "..."
          let to_p := pyTake (first_call.to_.getD "") 10 ++ "..."
          let func_p := first_call.function_signature.getD "unknown"
          let func_name_p := funcNameOf func_p
          let depth_p := first_call.depth.getD 0
          let to_contract_p := identify_contract (first_call.to_.getD "")
          let to_desc_p := to_contract_p.getD to_p
          some (from_p ++ " -> " ++ to_desc_p ++ " 调用 " ++ func_name_p ++
            " (深度 " ++ toString depth_p ++ ")"))
      if path_descriptions.isEmpty then []
      else ["关键调用路径：" ++ String.intercalate "; " path_descriptions ++ "。"]
  let parts_delegate : List String :=
    if call_types.any (fun p => p.1 = "DELEGATECALL") then
      let delegatecall_info := calls.filterMap (fun call =>
        if call.type = some "DELEGATECALL" then
          identify_contract (call.to_.getD "")
        else none)
      if delegatecall_info.isEmpty then
        ["该提案使用了 DELEGATECALL 机制，表明存在代理合约模式，核心逻辑通过委托调用触达实现合约。"]
      else
        ["该提案使用了 DELEGATECALL 机制，涉及 " ++
          String.intercalate ", " (setOrder (pySetOf delegatecall_info)) ++
          "，表明存在代理合约模式，核心逻辑通过委托调用触达实现合约。"]
    else []
  let parts_static : List String :=
    if call_types.any (fun p => p.1 = "STATICCALL") then
      ["该提案包含 STATICCALL 调用，用于读取合约状态而不修改链上数据。"]
    else []
  let has_exec_transaction := calls.any (fun c =>
    pyContains (c.function_signature.getD "") "execTransaction")
  let has_propose := calls.any (fun c =>
    pyContains (pyLower (c.function_signature.getD "")) "propose")
  let parts_governance : List String :=
    if has_exec_transaction ∧ has_propose then
      ["执行轨迹显示这是标准的 DAO 治理流程：通过多签钱包（Gnosis Safe）执行交易，调用 Governor 合约创建提案。这是提案创建阶段，而非提案执行阶段。"]
    else if has_exec_transaction then
      ["执行轨迹包含多签执行（execTransaction），表明这是通过多签钱包发起的操作。"]
    else if has_propose then
      ["执行轨迹包含提案创建（propose），表明这是 DAO 治理提案的创建流程。"]
    else []
  let description_parts :=
    [part_opening] ++ parts_functions ++ parts_types ++ parts_central ++
      [part_structure] ++ parts_paths ++ parts_delegate ++ parts_static ++
      parts_governance
  String.intercalate " " description_parts

/-! ### `src/auditor/auditor.py`: system-contract tables (lines 43–110) -/

/-- `SYSTEM_CONTRACTS` (auditor.py lines 43–61), in source order. -/
def SYSTEM_CONTRACTS : List (String × String) := [
  ("0x0000000000000000000000000000000000000001", "Ethereum Precompile: ECRecover"),
  ("0x0000000000000000000000000000000000000002", "Ethereum Precompile: SHA256"),
  ("0x0000000000000000000000000000000000000003", "Ethereum Precompile: RIPEMD160"),
  ("0x0000000000000000000000000000000000000004", "Ethereum Precompile: Identity"),
  ("0x0000000000000000000000000000000000000005", "Ethereum Precompile: ModExp"),
  ("0x0000000000000000000000000000000000000006", "Ethereum Precompile: BN256Add"),
  ("0x0000000000000000000000000000000000000007", "Ethereum Precompile: BN256Mul"),
  ("0x0000000000000000000000000000000000000008", "Ethereum Precompile: BN256Pairing"),
  ("0x0000000000000000000000000000000000000009", "Ethereum Precompile: Blake2F"),
  ("0x0000000000000000000000000000000000000064", "Arbitrum System Contract: L1 ArbSys"),
  ("0x0000000000000000000000000000000000000065", "Arbitrum System Contract: L2 ArbSys")]

/-- The 41-character prefix (`0x` + 39 zeros) tested by `is_system_contract`
for the Ethereum precompile range. -/
def precompileStart : String := "0x000000000000000000000000000000000000000"

/-- `is_system_contract` (auditor.py lines 75–97): lowercase the address,
recognise the precompile pattern (`0x` + 39 zeros followed by a final
character in `"123456789"`), then fall back to the `SYSTEM_CONTRACTS`
table. -/
def is_system_contract (address : String) : Bool :=
  let addr_lower := pyLower address
  if pyStartsWith addr_lower precompileStart ∧
      ("123456789" : String).data.contains (pyLastChar addr_lower) then
    true
  else if pyDictMem SYSTEM_CONTRACTS addr_lower then true
  else false

/-- `get_system_contract_description` (auditor.py lines 100–110):
`SYSTEM_CONTRACTS.get(address.lower())`. -/
def get_system_contract_description (address : String) : Option String :=
  pyDictGet SYSTEM_CONTRACTS (pyLower address)

/-! ### `src/simulator/simulator.py`: recursive trace traversals

A node of the nested call tree returned by the tracer.  The numeric `value` /
`gasUsed` / `gas` fields are modelled as already-decoded integers (the source
accepts both decimal and `0x`-hex encodings and decodes them with Python's
`int`; the decoding is orthogonal to the traversal structure verified here).
The `calls` child array is absent-or-present; an absent array behaves exactly
like an empty one (`if "calls" in node:` followed by a loop), so the model
uses a plain list. -/

inductive TraceNode where
  | mk (type : Option String) (from_ : Option String) (to_ : Option String)
       (value : Option Int) (input : Option String) (output : Option String)
       (gasUsed : Option Int) (gas : Option Int) (error : Option String)
       (calls : List TraceNode)

/-- `node.get("calls", [])`-style accessor. -/
def TraceNode.children : TraceNode → List TraceNode
  | .mk _ _ _ _ _ _ _ _ _ cs => cs

/-- `node.get("type")`. -/
def TraceNode.typeField : TraceNode → Option String
  | .mk t _ _ _ _ _ _ _ _ _ => t

/-- `node.get("from")`. -/
def TraceNode.fromField : TraceNode → Option String
  | .mk _ f _ _ _ _ _ _ _ _ => f

/-- `node.get("to")`. -/
def TraceNode.toField : TraceNode → Option String
  | .mk _ _ t _ _ _ _ _ _ _ => t

/-- `node.get("value")` (already decoded to an integer). -/
def TraceNode.valueField : TraceNode → Option Int
  | .mk _ _ _ v _ _ _ _ _ _ => v

/-- `node.get("input")`. -/
def TraceNode.inputField : TraceNode → Option String
  | .mk _ _ _ _ i _ _ _ _ _ => i

/-- `node.get("output")`. -/
def TraceNode.outputField : TraceNode → Option String
  | .mk _ _ _ _ _ o _ _ _ _ => o

/-- `node.get("gasUsed")` (already decoded to an integer). -/
def TraceNode.gasUsedField : TraceNode → Option Int
  | .mk _ _ _ _ _ _ g _ _ _ => g

/-- `node.get("gas")` (already decoded to an integer). -/
def TraceNode.gasField : TraceNode → Option Int
  | .mk _ _ _ _ _ _ _ g _ _ => g

/-- `node.get("error", None)`. -/
def TraceNode.errorField : TraceNode → Option String
  | .mk _ _ _ _ _ _ _ _ e _ => e

/-- One record appended to `calls` by `traverse_trace` in
`extract_calls_and_transfers` (simulator.py lines 861–872). -/
structure SimCall where
  type : String
  from_ : String
  to_ : String
  value : Int
  input : String
  output : String
  gas_used : Int
  depth : Nat
  error : Option String
  deriving DecidableEq, Repr

/-- One record appended to `transfers` by `traverse_trace` (lines 876–884);
the derived `value_eth` float (`value / 1e18`) is display-only and outside
the integer model. -/
structure SimTransfer where
  from_ : String
  to_ : String
  value : Int
  call_type : String
  depth : Nat
  deriving DecidableEq, Repr

mutual

/-- The recursive `traverse_trace` of
`ProposalSimulator.extract_calls_and_transfers` (simulator.py lines
830–889): entering a node at `depth > 50` returns immediately (the hard
recursion cap), otherwise the node's call record (for the four recognised
call kinds) and any value transfer are emitted, followed by the traversal of
its children at `depth + 1`. -/
def traverse_trace : TraceNode → Nat → List SimCall × List SimTransfer
  | .mk ty fr to_a v inp outp gu _ err children, depth =>
    if depth > 50 then ([], [])
    else
      let call_type := ty.getD ""
      let from_addr := fr.getD ""
      let to_addr := to_a.getD ""
      let value := v.getD 0
      let input_data := inp.getD "0x"
      let output_data := outp.getD "0x"
      let gas_used := gu.getD 0
      let error := err
      let here : List SimCall × List SimTransfer :=
        if call_type ∈ ["CALL", "DELEGATECALL", "STATICCALL", "CALLCODE"] then
          ([⟨call_type, from_addr, to_addr, value, input_data, output_data,
              gas_used, depth, error⟩],
           if value > 0 then [⟨from_addr, to_addr, value, call_type, depth⟩] else [])
        else ([], [])
      let rest := traverse_trace_children children (depth + 1)
      (here.1 ++ rest.1, here.2 ++ rest.2)

/-- The `for child in node["calls"]:` loop of `traverse_trace`: children are
traversed in order, appending to the shared accumulators. -/
def traverse_trace_children : List TraceNode → Nat → List SimCall × List SimTransfer
  | [], _ => ([], [])
  | c :: cs, depth =>
    let r := traverse_trace c depth
    let rs := traverse_trace_children cs depth
    (r.1 ++ rs.1, r.2 ++ rs.2)

end

/-- The summary object returned by
`ProposalSimulator.extract_calls_and_transfers` (simulator.py lines
894–906); `total_value_transferred_eth` is a float derived from
`total_value_transferred` and stays outside the integer model. -/
structure ExtractSummary where
  total_calls : Nat
  total_transfers : Nat
  total_value_transferred : Int
  calls : List SimCall
  transfers : List SimTransfer
  deriving DecidableEq, Repr

/-- `ProposalSimulator.extract_calls_and_transfers` (simulator.py lines
817–906): run `traverse_trace` from the root at depth 0 and wrap the
accumulators in the summary. -/
def extract_calls_and_transfers (trace : TraceNode) : ExtractSummary :=
  let r := traverse_trace trace 0
  { total_calls := r.1.length
    total_transfers := r.2.length
    total_value_transferred := (r.2.map (fun t => t.value)).sum
    calls := r.1
    transfers := r.2 }

/-- One record appended by the `traverse` helper of
`ProposalSimulator._extract_calls_from_call_tracer` (simulator.py lines
1243–1253). -/
structure TracerCall where
  type : String
  from_ : String
  to_ : String
  value : String
  input : String
  function_selector : String
  function_signature : String
  gas : String
  depth : Nat
  deriving DecidableEq, Repr

mutual

/-- The recursive `traverse` helper of
`ProposalSimulator._extract_calls_from_call_tracer` (simulator.py lines
1223–1257).  Unlike `traverse_trace` it has **no** depth cap: every node of
the tree is processed, at whatever nesting depth.  `resolver` stands for
`resolve_function_signature`, which consults a built-in table and then a web
API (an external collaborator, so it is a parameter here). -/
def tracerTraverse (resolver : String → String) :
    TraceNode → Nat → List TracerCall
  | .mk ty fr to_a v inp _ _ g _ children, depth =>
    let call_type := ty.getD ""
    let here : List TracerCall :=
      if call_type ∈ ["CALL", "STATICCALL", "DELEGATECALL"] then
        let value := v.getD 0
        let input_data := inp.getD "0x"
        let function_selector :=
          if 10 ≤ pyLen input_data then pyTake input_data 10 else "0x"
        let function_signature := resolver function_selector
        let gas := g.getD 0
        [⟨call_type, fr.getD "", to_a.getD "", toString value, input_data,
          function_selector, function_signature, toString gas, depth⟩]
      else []
    here ++ tracerTraverseChildren resolver children (depth + 1)

/-- The `for child in node["calls"]:` loop of the `traverse` helper. -/
def tracerTraverseChildren (resolver : String → String) :
    List TraceNode → Nat → List TracerCall
  | [], _ => []
  | c :: cs, depth =>
    tracerTraverse resolver c depth ++ tracerTraverseChildren resolver cs depth

end

/-- `ProposalSimulator._extract_calls_from_call_tracer` (simulator.py lines
1211–1260): run the uncapped `traverse` from the root at depth 0. -/
def extract_calls_from_call_tracer (resolver : String → String)
    (trace : TraceNode) : List TracerCall :=
  tracerTraverse resolver trace 0

/-! ### `GraphBuilder` method-level guards (graph_builder.py lines 197–198,
257–258, 311–312, 407–408)

Each metric method starts with
`if self.graph is None: raise ValueError("Graph not built. Call build_graph() first.")`;
the builder's `self.graph` is `None` until `build_graph` runs.  The guards
are modelled with `Except`, `Except.error` standing for the raised
`ValueError`. -/

/-- The `ValueError` message raised by all four methods. -/
def graphNotBuiltMsg : String := "Graph not built. Call build_graph() first."

/-- Method-level `calculate_graph_depth` on the builder state. -/
def depthMethod : Option MultiDiGraph → Except String Nat
  | none => .error graphNotBuiltMsg
  | some g => .ok (calculate_graph_depth g)

/-- Method-level `calculate_graph_breadth` on the builder state. -/
def breadthMethod : Option MultiDiGraph → Except String Nat
  | none => .error graphNotBuiltMsg
  | some g => .ok (calculate_graph_breadth g)

/-- Method-level `identify_central_nodes` on the builder state. -/
def centralMethod (top_k : Nat := 5) :
    Option MultiDiGraph → Except String (List (String × Nat))
  | none => .error graphNotBuiltMsg
  | some g => .ok (identify_central_nodes g top_k)

/-- Method-level `generate_description` on the builder state (when the graph
is present the trace data has already been loaded, so it is a plain
argument). -/
def describeMethod (td : TraceData) (setOrder : List String → List String) :
    Option MultiDiGraph → Except String String
  | none => .error graphNotBuiltMsg
  | some g => .ok (generate_description g td setOrder)

/-! ### Spec-side definitions for the depth metric

`specRecordedDepth` is **not** a translation of the source: it formalises the
specification's words "the reported `depth` is the maximum recorded value
across all nodes and all roots", i.e. the maximum of the *final* `depths`
values over every node and every root run, to be compared with what
`calculate_graph_depth` actually returns. -/

/-- Modelled from the spec: the maximum best-known hop count recorded for any
node across all root runs. -/
def specRecordedDepth (g : MultiDiGraph) : Nat :=
  if g.number_of_nodes = 0 then 0
  else
    (rootNodes g).foldl
      (fun m start =>
        let final := runDepth g (depthFuel g) (initDState start 0)
        g.nodes.foldl (fun m' n => max m' (final.depths n)) m) 0

/-- The sequence of `current_depth` values observed at each dequeue of the
depth loop, collected from the same step function as `runDepth` but without
the `max_depth` accumulator: used to characterise what the loop's `max_depth`
actually is. -/
def depthPopValues (g : MultiDiGraph) : Nat → List String → (String → Nat) →
    List String → List Nat
  | 0, _, _, _ => []
  | _ + 1, [], _, _ => []
  | n + 1, current :: rest, d, vis =>
    let current_depth := d current
    let vis' := pySetAdd vis current
    let (d', q') := procSuccs current_depth current vis' (MultiDiGraph.successors g current) d rest
    current_depth :: depthPopValues g n q' d' vis'

/-! ### Basic lemmas about the embedding -/

theorem pyLower_eq_empty_iff (s : String) : pyLower s = "" ↔ s = "" := by
  constructor
  · intro h
    have hd : (pyLower s).data = ("" : String).data := by rw [h]
    simp [pyLower] at hd
    cases s with
    | mk data => simp_all
  · intro h
    subst h
    rfl

/-- The edge that `build_graph` stores for one call record. -/
def mkEdgeOf (c : CallEntry) : Edge :=
  ⟨pyLower (c.from_.getD ""), pyLower (c.to_.getD ""), c.type.getD "CALL",
    c.function_signature.getD (c.function_selector.getD "unknown"),
    c.value.getD 0, c.depth.getD 0⟩

theorem addCall_edges_of_valid (g : MultiDiGraph) (c : CallEntry)
    (hf : pyLower (c.from_.getD "") ≠ "") (ht : pyLower (c.to_.getD "") ≠ "") :
    (addCall g c).edges = g.edges ++ [mkEdgeOf c] := by
  unfold addCall
  simp only [hf, ht, or_self, if_false]
  split <;> split <;> rfl

theorem addCall_nodes_of_valid (g : MultiDiGraph) (c : CallEntry)
    (hf : pyLower (c.from_.getD "") ≠ "") (ht : pyLower (c.to_.getD "") ≠ "") :
    ∀ a, a ∈ (addCall g c).nodes ↔
      a ∈ g.nodes ∨ a = pyLower (c.from_.getD "") ∨ a = pyLower (c.to_.getD "") := by
  intro a
  simp only [addCall, hf, ht, or_self, if_false]
  split <;> split <;>
    simp_all only [MultiDiGraph.add_edge, MultiDiGraph.add_node, MultiDiGraph.has_node,
      List.mem_append, List.mem_singleton, List.elem_iff] <;>
    aesop

theorem addCall_nodes_nodup_of_valid (g : MultiDiGraph) (c : CallEntry)
    (hnd : g.nodes.Nodup) :
    (addCall g c).nodes.Nodup := by
  simp only [addCall]
  split
  · exact hnd
  · split <;> split <;>
      simp_all [MultiDiGraph.add_edge, MultiDiGraph.add_node, MultiDiGraph.has_node,
        List.nodup_append, List.disjoint_left] <;>
      aesop

theorem build_graph_eq_fold (td : TraceData) :
    build_graph td = (getCalls td).foldl addCall {} := by
  simp only [build_graph]
  split
  · next h => rw [List.isEmpty_iff.mp h]; rfl
  · rfl

/-- Hypothesis bundle: every call record has non-empty endpoints (before or
equivalently after lowercasing). -/
abbrev ValidCalls (calls : List CallEntry) : Prop :=
  ∀ c ∈ calls, c.from_.getD "" ≠ "" ∧ c.to_.getD "" ≠ ""

theorem validCalls_lower {calls : List CallEntry} (h : ValidCalls calls) :
    ∀ c ∈ calls, pyLower (c.from_.getD "") ≠ "" ∧ pyLower (c.to_.getD "") ≠ "" := by
  intro c hc
  obtain ⟨h1, h2⟩ := h c hc
  constructor
  · intro hl; exact h1 ((pyLower_eq_empty_iff _).mp hl)
  · intro hl; exact h2 ((pyLower_eq_empty_iff _).mp hl)

theorem foldl_addCall_edges (calls : List CallEntry) :
    ∀ g : MultiDiGraph,
      (∀ c ∈ calls, pyLower (c.from_.getD "") ≠ "" ∧ pyLower (c.to_.getD "") ≠ "") →
      (calls.foldl addCall g).edges = g.edges ++ calls.map mkEdgeOf := by
  induction calls with
  | nil => intro g _; simp
  | cons c rest ih =>
    intro g h
    have hc := h c (List.mem_cons_self c rest)
    have hrest : ∀ x ∈ rest, pyLower (x.from_.getD "") ≠ "" ∧ pyLower (x.to_.getD "") ≠ "" :=
      fun x hx => h x (List.mem_cons_of_mem c hx)
    simp only [List.foldl_cons, List.map_cons]
    rw [ih (addCall g c) hrest, addCall_edges_of_valid g c hc.1 hc.2]
    simp

theorem foldl_addCall_nodes_mem (calls : List CallEntry) :
    ∀ g : MultiDiGraph,
      (∀ c ∈ calls, pyLower (c.from_.getD "") ≠ "" ∧ pyLower (c.to_.getD "") ≠ "") →
      ∀ a, a ∈ (calls.foldl addCall g).nodes ↔
        a ∈ g.nodes ∨ ∃ c ∈ calls,
          a = pyLower (c.from_.getD "") ∨ a = pyLower (c.to_.getD "") := by
  induction calls with
  | nil => intro g _ a; simp
  | cons c rest ih =>
    intro g h a
    have hc := h c (List.mem_cons_self c rest)
    have hrest : ∀ x ∈ rest, pyLower (x.from_.getD "") ≠ "" ∧ pyLower (x.to_.getD "") ≠ "" :=
      fun x hx => h x (List.mem_cons_of_mem c hx)
    simp only [List.foldl_cons]
    rw [ih (addCall g c) hrest a]
    rw [addCall_nodes_of_valid g c hc.1 hc.2 a]
    constructor
    · rintro ((hg | hfrom | hto) | ⟨x, hx, hor⟩)
      · exact Or.inl hg
      · exact Or.inr ⟨c, List.mem_cons_self c rest, Or.inl hfrom⟩
      · exact Or.inr ⟨c, List.mem_cons_self c rest, Or.inr hto⟩
      · exact Or.inr ⟨x, List.mem_cons_of_mem c hx, hor⟩
    · rintro (hg | ⟨x, hx, hor⟩)
      · exact Or.inl (Or.inl hg)
      · rcases List.mem_cons.mp hx with rfl | hx'
        · exact Or.inl (Or.inr hor)
        · exact Or.inr ⟨x, hx', hor⟩

theorem foldl_addCall_nodes_nodup (calls : List CallEntry) :
    ∀ g : MultiDiGraph, g.nodes.Nodup → (calls.foldl addCall g).nodes.Nodup := by
  induction calls with
  | nil => intro g h; exact h
  | cons c rest ih =>
    intro g h
    exact ih (addCall g c) (addCall_nodes_nodup_of_valid g c h)

/-- C1: for valid call records the built multigraph has one edge per record,
in order, each carrying the lowercased endpoints. -/
theorem build_graph_edges (td : TraceData) (h : ValidCalls (getCalls td)) :
    (build_graph td).edges = (getCalls td).map mkEdgeOf := by
  rw [build_graph_eq_fold]
  rw [foldl_addCall_edges (getCalls td) {} (validCalls_lower h)]
  rfl

theorem mem_map_mkEdgeOf {calls : List CallEntry} {e : Edge} :
    e ∈ calls.map mkEdgeOf ↔ ∃ c ∈ calls, e = mkEdgeOf c := by
  simp [eq_comm]

/-- C1: for every trace document whose call entries all carry a non-empty
`from` and a non-empty `to`, `build_graph` produces one edge per entry in
input order (so exactly N edges, parallel edges kept distinct), and its node
list is duplicate-free and consists exactly of the lowercased `from`/`to`
addresses of the entries — equivalently, exactly the endpoints of its edges
(no orphan nodes, no missing endpoints). -/
theorem build_graph_counts_and_nodes (td : TraceData)
    (h : ValidCalls (getCalls td)) :
    (build_graph td).edges = (getCalls td).map mkEdgeOf ∧
    (build_graph td).number_of_edges = (getCalls td).length ∧
    (build_graph td).nodes.Nodup ∧
    (∀ a, a ∈ (build_graph td).nodes ↔
      ∃ c ∈ getCalls td, a = pyLower (c.from_.getD "") ∨ a = pyLower (c.to_.getD "")) ∧
    (∀ a, a ∈ (build_graph td).nodes ↔
      ∃ e ∈ (build_graph td).edges, a = e.src ∨ a = e.dst) := by
  have hlow := validCalls_lower h
  have hedges : (build_graph td).edges = (getCalls td).map mkEdgeOf := by
    rw [build_graph_eq_fold]
    rw [foldl_addCall_edges (getCalls td) {} hlow]
    rfl
  have hmem : ∀ a, a ∈ (build_graph td).nodes ↔
      ∃ c ∈ getCalls td, a = pyLower (c.from_.getD "") ∨ a = pyLower (c.to_.getD "") := by
    intro a
    rw [build_graph_eq_fold]
    rw [foldl_addCall_nodes_mem (getCalls td) {} hlow a]
    simp
  refine ⟨hedges, ?_, ?_, hmem, ?_⟩
  · simp [MultiDiGraph.number_of_edges, hedges]
  · rw [build_graph_eq_fold]
    exact foldl_addCall_nodes_nodup (getCalls td) {} (by simp)
  · intro a
    rw [hmem a, hedges]
    constructor
    · rintro ⟨c, hc, hor⟩
      exact ⟨mkEdgeOf c, List.mem_map_of_mem mkEdgeOf hc, by
        rcases hor with h1 | h1 <;> simp [mkEdgeOf, h1]⟩
    · rintro ⟨e, he, hor⟩
      obtain ⟨c, hc, rfl⟩ := mem_map_mkEdgeOf.mp he
      exact ⟨c, hc, by rcases hor with h1 | h1 <;> simp [mkEdgeOf] at h1 <;> simp [h1]⟩

/-- Example document for the C1 witness: three calls over two addresses in
mixed case, with a parallel edge and a cycle. -/
def exDocC1 : TraceData :=
  { trace_summary := some ⟨[
      { from_ := some "0xAa", to_ := some "0xBb", type := some "CALL" },
      { from_ := some "0xaA", to_ := some "0xbB", type := some "DELEGATECALL" },
      { from_ := some "0xbb", to_ := some "0xaa", type := some "CALL" }]⟩ }

/-- Witness for C1 at a concrete document. -/
theorem build_graph_counts_and_nodes_witness :
    ValidCalls (getCalls exDocC1) ∧
    ((build_graph exDocC1).edges = (getCalls exDocC1).map mkEdgeOf ∧
     (build_graph exDocC1).number_of_edges = (getCalls exDocC1).length ∧
     (build_graph exDocC1).nodes.Nodup ∧
     (∀ a, a ∈ (build_graph exDocC1).nodes ↔
       ∃ c ∈ getCalls exDocC1,
         a = pyLower (c.from_.getD "") ∨ a = pyLower (c.to_.getD "")) ∧
     (∀ a, a ∈ (build_graph exDocC1).nodes ↔
       ∃ e ∈ (build_graph exDocC1).edges, a = e.src ∨ a = e.dst)) :=
  ⟨by decide, build_graph_counts_and_nodes exDocC1 (by decide)⟩

/-- C10: if `build_graph` has not run (the builder's graph is `None`), each of
the four metric/description methods raises
`ValueError("Graph not built. Call build_graph() first.")` — modelled as
`Except.error` — and in particular never returns a zero or empty `ok`
result. -/
theorem methods_raise_before_build :
    depthMethod none = Except.error graphNotBuiltMsg ∧
    breadthMethod none = Except.error graphNotBuiltMsg ∧
    (∀ top_k, centralMethod top_k none = Except.error graphNotBuiltMsg) ∧
    (∀ td setOrder, describeMethod td setOrder none = Except.error graphNotBuiltMsg) :=
  ⟨rfl, rfl, fun _ => rfl, fun _ _ => rfl⟩

/-- C9: a trace document with an empty (or absent) call list yields the empty
graph (0 nodes, 0 edges) rather than an error, zero depth and breadth, an
empty central-node ranking, and `generate_description` still returns a
string (`Except.ok`) rather than raising. -/
theorem empty_calls_graceful (td : TraceData)
    (setOrder : List String → List String) (h : getCalls td = []) :
    build_graph td = { nodes := [], edges := [] } ∧
    calculate_graph_depth (build_graph td) = 0 ∧
    calculate_graph_breadth (build_graph td) = 0 ∧
    (∀ top_k, identify_central_nodes (build_graph td) top_k = []) ∧
    (∃ s, describeMethod td setOrder (some (build_graph td)) = Except.ok s) := by
  have hb : build_graph td = { nodes := [], edges := [] } := by
    rw [build_graph_eq_fold, h]
    rfl
  refine ⟨hb, ?_, ?_, ?_, ?_⟩
  · rw [hb]; rfl
  · rw [hb]; rfl
  · intro top_k
    rw [hb]
    simp [identify_central_nodes, inDegreeCounter, mostCommon]
  · exact ⟨generate_description (build_graph td) td setOrder, rfl⟩

/-- Witness for C9 at the all-absent document. -/
theorem empty_calls_graceful_witness :
    getCalls {} = [] ∧
    (build_graph {} = { nodes := [], edges := [] } ∧
     calculate_graph_depth (build_graph {}) = 0 ∧
     calculate_graph_breadth (build_graph {}) = 0 ∧
     (∀ top_k, identify_central_nodes (build_graph {}) top_k = []) ∧
     (∃ s, describeMethod {} id (some (build_graph {})) = Except.ok s)) :=
  ⟨rfl, empty_calls_graceful {} id rfl⟩

theorem pyDictMem_eq_false_of_get_none (d : List (String × String)) (k : String)
    (h : pyDictGet d k = none) : pyDictMem d k = false := by
  simp only [pyDictGet, Option.map_eq_none', List.find?_eq_none] at h
  simp only [pyDictMem, List.any_eq_false]
  intro p hp
  exact h p hp

/-- The zero-padded 42-character address whose 20-byte value equals `i`
(for a single decimal digit `i`). -/
def precompileAddr (i : Nat) : String := precompileStart ++ toString i

/-- C6: the semantic annotator classifies addresses `0x0000…0001` through
`0x0000…0009` as Ethereum precompiles, the two designated Arbitrum system
addresses as L2 system contracts, and any well-formed (42-character) address
absent from both knowledge tables as unclassified (`None` / not a system
contract). -/
theorem annotator_classification :
    (∀ i, 1 ≤ i → i ≤ 9 →
      is_system_contract (precompileAddr i) = true ∧
      (get_system_contract_description (precompileAddr i)).isSome = true ∧
      pyStartsWith ((get_system_contract_description (precompileAddr i)).getD "")
        "Ethereum Precompile" = true) ∧
    (is_system_contract "0x0000000000000000000000000000000000000064" = true ∧
     get_system_contract_description "0x0000000000000000000000000000000000000064" =
       some "Arbitrum System Contract: L1 ArbSys" ∧
     is_system_contract "0x0000000000000000000000000000000000000065" = true ∧
     get_system_contract_description "0x0000000000000000000000000000000000000065" =
       some "Arbitrum System Contract: L2 ArbSys") ∧
    (∀ a, pyLen (pyLower a) = 42 →
      pyDictGet KNOWN_CONTRACTS (pyLower a) = none →
      pyDictGet SYSTEM_CONTRACTS (pyLower a) = none →
      identify_contract a = none ∧
      get_system_contract_description a = none ∧
      is_system_contract a = false) := by
  refine ⟨?_, by decide, ?_⟩
  · intro i h1 h9
    interval_cases i <;> exact ⟨by decide, by decide, by decide⟩
  · intro a hlen hk hs
    refine ⟨hk, hs, ?_⟩
    have hmem := pyDictMem_eq_false_of_get_none SYSTEM_CONTRACTS (pyLower a) hs
    simp only [is_system_contract]
    have hpre : ¬(pyStartsWith (pyLower a) precompileStart = true ∧
        ("123456789" : String).data.contains (pyLastChar (pyLower a)) = true) := by
      rintro ⟨hp, hc⟩
      obtain ⟨rest, hrest⟩ := List.isPrefixOf_iff_prefix.mp hp
      have hplen : precompileStart.data.length = 41 := by decide
      have hrlen : rest.length = 1 := by
        have hl := congrArg List.length hrest
        simp only [List.length_append, hplen] at hl
        simp only [pyLen] at hlen
        omega
      obtain ⟨c, rfl⟩ := List.length_eq_one.mp hrlen
      have hlast : pyLastChar (pyLower a) = c := by
        simp only [pyLastChar, ← hrest]
        exact List.getLastD_concat _ _ _
      rw [hlast] at hc
      have hceq : (pyLower a) = String.mk (precompileStart.data ++ [c]) :=
        String.ext hrest.symm
      have hcmem : c ∈ ("123456789" : String).data := by
        simpa [List.elem_iff] using hc
      rw [hceq] at hs
      fin_cases hcmem <;> revert hs <;> decide
    rw [if_neg hpre, if_neg (by simp [hmem])]

/-- A well-formed address that appears in no knowledge table. -/
def unknownAddr : String := "0xDEadBEef00000000000000000000000000000001"

/-- Witness for C6: the classification theorem applied at address 3 and at a
concrete unknown address. -/
theorem annotator_classification_witness :
    ((1 : Nat) ≤ 3 ∧ (3 : Nat) ≤ 9 ∧ is_system_contract (precompileAddr 3) = true) ∧
    (pyLen (pyLower unknownAddr) = 42 ∧
     pyDictGet KNOWN_CONTRACTS (pyLower unknownAddr) = none ∧
     pyDictGet SYSTEM_CONTRACTS (pyLower unknownAddr) = none ∧
     identify_contract unknownAddr = none ∧
     is_system_contract unknownAddr = false) :=
  ⟨⟨by decide, by decide,
     (annotator_classification.1 3 (by decide) (by decide)).1⟩,
   ⟨by decide, by decide, by decide,
     (annotator_classification.2.2 unknownAddr (by decide) (by decide) (by decide)).1,
     (annotator_classification.2.2 unknownAddr (by decide) (by decide) (by decide)).2.2⟩⟩

/-! ### Lemmas for the central-node ranking (C5) -/

theorem mem_insertDesc {x a : String × Nat} :
    ∀ {l : List (String × Nat)}, a ∈ insertDesc x l ↔ a = x ∨ a ∈ l := by
  intro l
  induction l with
  | nil => simp [insertDesc]
  | cons y ys ih =>
    simp only [insertDesc]
    split
    · simp only [List.mem_cons, ih]
      tauto
    · simp only [List.mem_cons]

/-- Descending order on counted pairs. -/
def DescPair (a b : String × Nat) : Prop := b.2 ≤ a.2

theorem insertDesc_sorted {x : String × Nat} :
    ∀ {l : List (String × Nat)}, l.Pairwise DescPair →
      (insertDesc x l).Pairwise DescPair := by
  intro l
  induction l with
  | nil => intro _; simp [insertDesc, DescPair]
  | cons y ys ih =>
    intro h
    rcases List.pairwise_cons.mp h with ⟨hy, hys⟩
    simp only [insertDesc]
    split
    · next hle =>
      refine List.pairwise_cons.mpr ⟨?_, ih hys⟩
      intro a ha
      rcases mem_insertDesc.mp ha with rfl | ha'
      · exact hle
      · exact hy a ha'
    · next hgt =>
      refine List.pairwise_cons.mpr ⟨?_, h⟩
      intro a ha
      rcases List.mem_cons.mp ha with rfl | ha'
      · exact Nat.le_of_not_le hgt
      · exact le_trans (hy a ha') (Nat.le_of_not_le hgt)

theorem filter_eq_nil_of_lt {n : Nat} {y : String × Nat}
    {ys : List (String × Nat)} (hs : ∀ a ∈ ys, DescPair y a) (hy : y.2 < n) :
    ys.filter (fun p => p.2 = n) = [] := by
  rw [List.filter_eq_nil_iff]
  intro p hp
  have := hs p hp
  simp only [DescPair] at this
  simp only [decide_eq_true_eq]
  omega

theorem insertDesc_filter {x : String × Nat} (n : Nat) :
    ∀ {l : List (String × Nat)}, l.Pairwise DescPair →
      (insertDesc x l).filter (fun p => p.2 = n) =
        if x.2 = n then l.filter (fun p => p.2 = n) ++ [x]
        else l.filter (fun p => p.2 = n) := by
  intro l
  induction l with
  | nil =>
    intro _
    simp only [insertDesc, List.filter_nil, List.nil_append]
    split <;> simp_all
  | cons y ys ih =>
    intro h
    rcases List.pairwise_cons.mp h with ⟨hy, hys⟩
    simp only [insertDesc]
    split
    · next hle =>
      simp only [List.filter_cons]
      rw [ih hys]
      split <;> split <;> simp_all
    · next hgt =>
      have hxn : y.2 < x.2 := Nat.lt_of_not_le (by simpa using hgt)
      simp only [List.filter_cons]
      split
      · next hxeq =>
        have hxv : x.2 = n := by simpa using hxeq
        have hyn : ¬(y.2 = n) := by omega
        have hnil : ys.filter (fun p => p.2 = n) = [] :=
          filter_eq_nil_of_lt hy (by omega)
        simp [hyn, hnil, hxv]
      · next hxeq =>
        simp_all

theorem foldl_insertDesc_props (l : List (String × Nat)) :
    ∀ acc : List (String × Nat), acc.Pairwise DescPair →
      (l.foldl (fun a x => insertDesc x a) acc).Pairwise DescPair ∧
      (∀ n, (l.foldl (fun a x => insertDesc x a) acc).filter (fun p => p.2 = n) =
        acc.filter (fun p => p.2 = n) ++ l.filter (fun p => p.2 = n)) ∧
      (∀ a, a ∈ l.foldl (fun a x => insertDesc x a) acc ↔ a ∈ acc ∨ a ∈ l) := by
  induction l with
  | nil => intro acc h; simp [h]
  | cons x xs ih =>
    intro acc h
    have hx : (insertDesc x acc).Pairwise DescPair := insertDesc_sorted h
    obtain ⟨h1, h2, h3⟩ := ih (insertDesc x acc) hx
    refine ⟨h1, ?_, ?_⟩
    · intro n
      simp only [List.foldl_cons] at h2 ⊢
      rw [h2 n, insertDesc_filter n h]
      simp only [List.filter_cons]
      split
      · next hxn =>
        rw [if_pos (by simpa using hxn)]
        simp
      · next hxn =>
        rw [if_neg (by simpa using hxn)]
    · intro a
      simp only [List.foldl_cons] at h3 ⊢
      rw [h3 a, mem_insertDesc]
      simp only [List.mem_cons]
      tauto

theorem mostCommon_sorted (c : List (String × Nat)) :
    (mostCommon c).Pairwise DescPair :=
  (foldl_insertDesc_props c [] (by simp)).1

theorem mostCommon_filter (c : List (String × Nat)) (n : Nat) :
    (mostCommon c).filter (fun p => p.2 = n) = c.filter (fun p => p.2 = n) := by
  have := (foldl_insertDesc_props c [] (by simp)).2.1 n
  simpa [mostCommon] using this

theorem mostCommon_mem (c : List (String × Nat)) (a : String × Nat) :
    a ∈ mostCommon c ↔ a ∈ c := by
  have := (foldl_insertDesc_props c [] (by simp)).2.2 a
  simpa [mostCommon] using this

theorem inDegreeCounter_eq_filterMap (g : MultiDiGraph) :
    inDegreeCounter g = g.nodes.filterMap
      (fun n => if 0 < g.in_degree n then some (n, g.in_degree n) else none) := by
  have key : ∀ (ns : List String) (acc : List (String × Nat)),
      ns.foldl (fun c node =>
        let d := g.in_degree node
        if 0 < d then c ++ [(node, d)] else c) acc =
      acc ++ ns.filterMap
        (fun n => if 0 < g.in_degree n then some (n, g.in_degree n) else none) := by
    intro ns
    induction ns with
    | nil => intro acc; simp
    | cons x xs ih =>
      intro acc
      by_cases hpos : 0 < g.in_degree x
      · simp [hpos, ih]
      · simp [hpos, ih]
  simpa [inDegreeCounter] using key g.nodes []

theorem filterMap_degree_fst_sublist (g : MultiDiGraph) :
    ∀ l : List String,
      List.Sublist
        ((l.filterMap (fun n =>
          if 0 < g.in_degree n then some (n, g.in_degree n) else none)).map
          Prod.fst) l := by
  intro l
  induction l with
  | nil => simp
  | cons x xs ih =>
    simp only [List.filterMap_cons]
    split
    · exact ih.cons x
    · next v heq =>
      have hx : v.1 = x := by
        by_cases hpos : 0 < g.in_degree x <;> simp [hpos] at heq <;> simp [← heq]
      simp only [List.map_cons, hx]
      exact ih.cons₂ x

/-- C5: `identify_central_nodes` lists (address, in-degree) pairs in
descending in-degree order, excludes nodes of in-degree 0, reports each
node's true (parallel-edge-counting) in-degree, and breaks ties between
equal in-degrees by the nodes' first-insertion order into the graph (pairs
with the same count occur as a sublist of the node insertion order).
Being a pure function of the graph, the ranking is identical across runs on
identical input. -/
theorem identify_central_nodes_ranking (g : MultiDiGraph) (top_k : Nat) :
    (identify_central_nodes g top_k).Pairwise DescPair ∧
    (∀ p ∈ identify_central_nodes g top_k,
      p.1 ∈ g.nodes ∧ p.2 = g.in_degree p.1 ∧ 0 < p.2) ∧
    (∀ n, List.Sublist
      (((identify_central_nodes g top_k).filter (fun p => p.2 = n)).map Prod.fst)
      g.nodes) := by
  have hctr := inDegreeCounter_eq_filterMap g
  refine ⟨?_, ?_, ?_⟩
  · exact (mostCommon_sorted (inDegreeCounter g)).sublist
      (List.take_sublist top_k _)
  · intro p hp
    have hp' : p ∈ mostCommon (inDegreeCounter g) :=
      List.mem_of_mem_take hp
    have hmem : p ∈ inDegreeCounter g := (mostCommon_mem _ p).mp hp'
    rw [hctr] at hmem
    obtain ⟨m, hm, heq⟩ := List.mem_filterMap.mp hmem
    by_cases hpos : 0 < g.in_degree m
    · rw [if_pos hpos] at heq
      have hpe := Option.some.inj heq
      subst hpe
      exact ⟨hm, rfl, hpos⟩
    · rw [if_neg hpos] at heq
      exact absurd heq (Option.noConfusion)
  · intro n
    have h1 : List.Sublist
        ((identify_central_nodes g top_k).filter (fun p => p.2 = n))
        ((mostCommon (inDegreeCounter g)).filter (fun p => p.2 = n)) :=
      List.Sublist.filter _ (List.take_sublist top_k _)
    rw [mostCommon_filter] at h1
    have h2 : List.Sublist ((inDegreeCounter g).filter (fun p => p.2 = n))
        (inDegreeCounter g) :=
      List.filter_sublist _
    have h3 := (h1.trans h2).map Prod.fst
    rw [hctr] at h3
    exact h3.trans (filterMap_degree_fst_sublist g g.nodes)

/-! ### Well-formedness of built graphs and successor lemmas (towards C2) -/

/-- Well-formed multigraph: duplicate-free node list containing every edge
endpoint.  Every graph produced by `build_graph` is well-formed. -/
def Wf (g : MultiDiGraph) : Prop :=
  g.nodes.Nodup ∧ ∀ e ∈ g.edges, e.src ∈ g.nodes ∧ e.dst ∈ g.nodes

theorem addCall_wf (g : MultiDiGraph) (c : CallEntry) (h : Wf g) :
    Wf (addCall g c) := by
  obtain ⟨hnd, hend⟩ := h
  simp only [addCall, Wf]
  split
  · exact ⟨hnd, hend⟩
  · split <;> split <;>
      constructor <;>
      simp_all [MultiDiGraph.add_edge, MultiDiGraph.add_node,
        MultiDiGraph.has_node, List.nodup_append, List.disjoint_left] <;>
      aesop

theorem build_graph_wf (td : TraceData) : Wf (build_graph td) := by
  rw [build_graph_eq_fold]
  have key : ∀ (calls : List CallEntry) (g : MultiDiGraph), Wf g →
      Wf (calls.foldl addCall g) := by
    intro calls
    induction calls with
    | nil => intro g h; exact h
    | cons c rest ih => intro g h; exact ih (addCall g c) (addCall_wf g c h)
  exact key (getCalls td) {} ⟨List.nodup_nil, by simp⟩

theorem mem_successors_iff (g : MultiDiGraph) (u a : String) :
    a ∈ g.successors u ↔ ∃ e ∈ g.edges, e.src = u ∧ e.dst = a := by
  have key : ∀ (es : List Edge) (acc : List String),
      (a ∈ es.foldl (fun acc e =>
        if e.src = u ∧ e.dst ∉ acc then acc ++ [e.dst] else acc) acc) ↔
      (a ∈ acc ∨ ∃ e ∈ es, e.src = u ∧ e.dst = a) := by
    intro es
    induction es with
    | nil => intro acc; simp
    | cons e rest ih =>
      intro acc
      simp only [List.foldl_cons]
      rw [ih]
      split
      · next hcond =>
        simp only [List.mem_append, List.mem_cons, List.not_mem_nil, or_false]
        constructor
        · rintro ((h | rfl) | h)
          · exact Or.inl h
          · exact Or.inr ⟨e, Or.inl rfl, hcond.1, rfl⟩
          · obtain ⟨e', he', hp⟩ := h
            exact Or.inr ⟨e', Or.inr he', hp⟩
        · rintro (h | ⟨e', he', hsrc, hdst⟩)
          · exact Or.inl (Or.inl h)
          · rcases he' with rfl | he'
            · exact Or.inl (Or.inr hdst.symm)
            · exact Or.inr ⟨e', he', hsrc, hdst⟩
      · next hcond =>
        simp only [List.mem_cons]
        constructor
        · rintro (h | h)
          · exact Or.inl h
          · obtain ⟨e', he', hp⟩ := h
            exact Or.inr ⟨e', Or.inr he', hp⟩
        · rintro (h | ⟨e', he', hsrc, hdst⟩)
          · exact Or.inl h
          · rcases he' with rfl | he'
            · rw [not_and_or, not_not] at hcond
              rcases hcond with hc | hc
              · exact absurd hsrc hc
              · rw [← hdst]; exact Or.inl hc
            · exact Or.inr ⟨e', he', hsrc, hdst⟩
  simpa [MultiDiGraph.successors] using key g.edges []

theorem successors_nodup (g : MultiDiGraph) (u : String) :
    (g.successors u).Nodup := by
  have key : ∀ (es : List Edge) (acc : List String), acc.Nodup →
      (es.foldl (fun acc e =>
        if e.src = u ∧ e.dst ∉ acc then acc ++ [e.dst] else acc) acc).Nodup := by
    intro es
    induction es with
    | nil => intro acc h; exact h
    | cons e rest ih =>
      intro acc h
      simp only [List.foldl_cons]
      split
      · next hcond =>
        exact ih _ (by simp [List.nodup_append, h, hcond.2])
      · exact ih _ h
  exact key g.edges [] List.nodup_nil

theorem successors_mem_nodes {g : MultiDiGraph} (hwf : Wf g) (u : String) :
    ∀ a ∈ g.successors u, a ∈ g.nodes := by
  intro a ha
  obtain ⟨e, he, _, hdst⟩ := (mem_successors_iff g u a).mp ha
  rw [← hdst]
  exact (hwf.2 e he).2

theorem successors_length_le {g : MultiDiGraph} (hwf : Wf g) (u : String) :
    (g.successors u).length ≤ g.nodes.length := by
  have hnd := successors_nodup g u
  have hsub : (g.successors u).toFinset ⊆ g.nodes.toFinset := by
    intro a ha
    rw [List.mem_toFinset] at ha ⊢
    exact successors_mem_nodes hwf u a ha
  calc (g.successors u).length = (g.successors u).toFinset.card :=
        (List.toFinset_card_of_nodup hnd).symm
    _ ≤ g.nodes.toFinset.card := Finset.card_le_card hsub
    _ ≤ g.nodes.length := g.nodes.toFinset_card_le

/-! ### Termination of the depth relaxation (C2) -/

theorem procSuccs_queue (cd : Nat) (current : String) (vis : List String) :
    ∀ (ss : List String) (d : String → Nat) (q : List String),
      ∃ app : List String,
        (procSuccs cd current vis ss d q).2 = q ++ app ∧
        app.length ≤ ss.length ∧
        ∀ x ∈ app, x ∉ vis ∧ x ∈ ss := by
  intro ss
  induction ss with
  | nil =>
    intro d q
    exact ⟨[], by simp [procSuccs], by simp, by simp⟩
  | cons succ rest ih =>
    intro d q
    simp only [procSuccs]
    split
    · obtain ⟨app, h1, h2, h3⟩ := ih d q
      exact ⟨app, h1, Nat.le_succ_of_le h2, fun x hx =>
        ⟨(h3 x hx).1, List.mem_cons_of_mem _ (h3 x hx).2⟩⟩
    · split
      · obtain ⟨app, h1, h2, h3⟩ := ih d q
        exact ⟨app, h1, Nat.le_succ_of_le h2, fun x hx =>
          ⟨(h3 x hx).1, List.mem_cons_of_mem _ (h3 x hx).2⟩⟩
      · split
        · next hmem =>
          obtain ⟨app, h1, h2, h3⟩ := ih (updateFn d succ (cd + 1)) q
          exact ⟨app, h1, Nat.le_succ_of_le h2, fun x hx =>
            ⟨(h3 x hx).1, List.mem_cons_of_mem _ (h3 x hx).2⟩⟩
        · next hmem =>
          obtain ⟨app, h1, h2, h3⟩ := ih (updateFn d succ (cd + 1)) (q ++ [succ])
          refine ⟨succ :: app, ?_, by simpa using h2, ?_⟩
          · rw [h1, List.append_assoc]
            rfl
          · intro x hx
            rcases List.mem_cons.mp hx with rfl | hx'
            · exact ⟨hmem, List.mem_cons_self _ _⟩
            · exact ⟨(h3 x hx').1, List.mem_cons_of_mem _ (h3 x hx').2⟩

/-- Number of graph nodes not yet visited. -/
def unvisCount (g : MultiDiGraph) (vis : List String) : Nat :=
  (g.nodes.filter (fun n => n ∉ vis)).length

/-- Weight of one queue entry for the termination measure of the depth loop:
entries grow exponentially cheaper as the visited set grows, and an
already-visited entry is one step more expensive than an unvisited one at the
same stage. -/
def wD (g : MultiDiGraph) (vis : List String) (u : String) : Nat :=
  (g.nodes.length + 1) ^ (2 * unvisCount g vis + (if u ∈ vis then 1 else 0))

/-- Termination measure of the depth loop: total weight of the queue. -/
def phiD (g : MultiDiGraph) (s : DState) : Nat :=
  (s.queue.map (wD g s.visited)).sum

theorem unvisCount_insert_of_not_mem {g : MultiDiGraph} (hnd : g.nodes.Nodup)
    {vis : List String} {current : String} (hc : current ∈ g.nodes)
    (hnv : current ∉ vis) :
    unvisCount g (vis ++ [current]) + 1 = unvisCount g vis := by
  unfold unvisCount
  have hpred : ∀ n : String, (n ∉ vis ++ [current]) ↔ ((n ∉ vis) ∧ n ≠ current) := by
    intro n
    simp [not_or]
  have hfe : g.nodes.filter (fun n => n ∉ vis ++ [current]) =
      (g.nodes.filter (fun n => n ∉ vis)).filter (fun n => n ≠ current) := by
    rw [List.filter_filter]
    apply List.filter_congr
    intro n _
    simp [hpred n, and_comm]
  rw [hfe]
  have hnd' : (g.nodes.filter (fun n => n ∉ vis)).Nodup := hnd.filter _
  have hcmem : current ∈ g.nodes.filter (fun n => n ∉ vis) := by
    rw [List.mem_filter]
    exact ⟨hc, by simpa using hnv⟩
  have hswap : (g.nodes.filter (fun n => n ∉ vis)).filter (fun n => n ≠ current) =
      (g.nodes.filter (fun n => n ∉ vis)).filter (fun n => n != current) := by
    apply List.filter_congr
    intro n _
    by_cases h : n = current <;> simp [h]
  rw [hswap, ← List.Nodup.erase_eq_filter hnd' current]
  rw [List.length_erase_of_mem hcmem]
  have : 0 < (g.nodes.filter (fun n => n ∉ vis)).length :=
    List.length_pos.mpr (List.ne_nil_of_mem hcmem)
  omega

theorem pySetAdd_of_mem {s : List String} {a : String} (h : a ∈ s) :
    pySetAdd s a = s := by simp [pySetAdd, h]

theorem pySetAdd_of_not_mem {s : List String} {a : String} (h : a ∉ s) :
    pySetAdd s a = s ++ [a] := by simp [pySetAdd, h]

theorem map_sum_le_mul {l : List String} {f : String → Nat} {c : Nat}
    (h : ∀ x ∈ l, f x ≤ c) : (l.map f).sum ≤ l.length * c := by
  have h2 : ∀ y ∈ l.map f, y ≤ c := by
    intro y hy
    obtain ⟨x, hx, rfl⟩ := List.mem_map.mp hy
    exact h x hx
  have := List.sum_le_card_nsmul (l.map f) c h2
  simpa [smul_eq_mul] using this

theorem depthStep_phi (g : MultiDiGraph) (hwf : Wf g)
    (current : String) (rest vis0 : List String) (d0 : String → Nat) (m : Nat)
    (hcur : current ∈ g.nodes) (hrest : ∀ u ∈ rest, u ∈ g.nodes) :
    phiD g (depthStep g ⟨current :: rest, d0, vis0, m⟩) <
      phiD g ⟨current :: rest, d0, vis0, m⟩ ∧
    ∀ u ∈ (depthStep g ⟨current :: rest, d0, vis0, m⟩).queue, u ∈ g.nodes := by
  have hN : (g.successors current).length ≤ g.nodes.length :=
    successors_length_le hwf current
  obtain ⟨app, happ, hlen, hprops⟩ :=
    procSuccs_queue (d0 current) current (pySetAdd vis0 current)
      (g.successors current) d0 rest
  have hstep : depthStep g ⟨current :: rest, d0, vis0, m⟩ =
      ⟨(procSuccs (d0 current) current (pySetAdd vis0 current)
          (g.successors current) d0 rest).2,
       (procSuccs (d0 current) current (pySetAdd vis0 current)
          (g.successors current) d0 rest).1,
       pySetAdd vis0 current, max m (d0 current)⟩ := by
    cases hpq : procSuccs (d0 current) current (pySetAdd vis0 current)
      (g.successors current) d0 rest with
    | mk d q => simp [depthStep, hpq]
  rw [hstep]
  have hinv : ∀ u ∈ (rest ++ app), u ∈ g.nodes := by
    intro u hu
    rcases List.mem_append.mp hu with hu | hu
    · exact hrest u hu
    · exact successors_mem_nodes hwf current u ((hprops u hu).2)
  constructor
  case right =>
    intro u hu
    rw [happ] at hu
    exact hinv u hu
  case left =>
    simp only [phiD, happ, List.map_append, List.sum_append, List.map_cons,
      List.sum_cons]
    set N := g.nodes.length with hNdef
    by_cases hv : current ∈ vis0
    · -- the popped entry was already visited: the visited set does not change
      rw [pySetAdd_of_mem hv] at hprops ⊢
      set k := unvisCount g vis0 with hk
      have happle : (app.map (wD g vis0)).sum ≤ N * (N + 1) ^ (2 * k) := by
        have hb : ∀ x ∈ app, wD g vis0 x ≤ (N + 1) ^ (2 * k) := by
          intro x hx
          have hxnv : x ∉ vis0 := (hprops x hx).1
          simp [wD, hxnv, ← hk]
        calc (app.map (wD g vis0)).sum ≤ app.length * (N + 1) ^ (2 * k) :=
              map_sum_le_mul hb
          _ ≤ N * (N + 1) ^ (2 * k) :=
              Nat.mul_le_mul_right _ (le_trans hlen hN)
      have hcw : wD g vis0 current = (N + 1) ^ (2 * k + 1) := by
        simp [wD, hv, ← hk]
      have hlt : N * (N + 1) ^ (2 * k) < (N + 1) ^ (2 * k + 1) := by
        rw [pow_succ, mul_comm ((N + 1) ^ (2 * k)) (N + 1)]
        exact (Nat.mul_lt_mul_right (Nat.pos_pow_of_pos _ (Nat.succ_pos N))).mpr
          (Nat.lt_succ_self N)
      rw [hcw]
      omega
    · -- the popped entry is newly visited: the unvisited count drops by one
      rw [pySetAdd_of_not_mem hv] at hprops ⊢
      set k := unvisCount g vis0 with hk
      have hk1 : unvisCount g (vis0 ++ [current]) + 1 = k :=
        unvisCount_insert_of_not_mem hwf.1 hcur hv
      have hrest_le : (rest.map (wD g (vis0 ++ [current]))).sum ≤
          (rest.map (wD g vis0)).sum := by
        apply List.sum_le_sum
        intro u _
        apply Nat.pow_le_pow_right (Nat.succ_le_succ (Nat.zero_le N))
        by_cases hm : u ∈ vis0 ++ [current] <;> by_cases hm0 : u ∈ vis0 <;>
          simp [hm, hm0] <;> omega
      have happle : (app.map (wD g (vis0 ++ [current]))).sum ≤
          N * (N + 1) ^ (2 * (k - 1)) := by
        have hb : ∀ x ∈ app, wD g (vis0 ++ [current]) x ≤ (N + 1) ^ (2 * (k - 1)) := by
          intro x hx
          have hxnv : x ∉ vis0 ++ [current] := (hprops x hx).1
          have : unvisCount g (vis0 ++ [current]) = k - 1 := by omega
          simp [wD, hxnv, this]
        calc (app.map (wD g (vis0 ++ [current]))).sum ≤
              app.length * (N + 1) ^ (2 * (k - 1)) := map_sum_le_mul hb
          _ ≤ N * (N + 1) ^ (2 * (k - 1)) :=
              Nat.mul_le_mul_right _ (le_trans hlen hN)
      have hcw : wD g vis0 current = (N + 1) ^ (2 * k) := by
        simp [wD, hv, ← hk]
      have hlt : N * (N + 1) ^ (2 * (k - 1)) < (N + 1) ^ (2 * k) := by
        have h1 : N * (N + 1) ^ (2 * (k - 1)) < (N + 1) ^ (2 * (k - 1) + 1) := by
          rw [pow_succ, mul_comm ((N + 1) ^ (2 * (k - 1))) (N + 1)]
          exact (Nat.mul_lt_mul_right (Nat.pos_pow_of_pos _ (Nat.succ_pos N))).mpr
            (Nat.lt_succ_self N)
        have h2 : (N + 1) ^ (2 * (k - 1) + 1) ≤ (N + 1) ^ (2 * k) :=
          Nat.pow_le_pow_right (Nat.succ_le_succ (Nat.zero_le N)) (by omega)
        omega
      rw [hcw]
      omega

theorem runDepth_queue_empty (g : MultiDiGraph) :
    ∀ (f : Nat) (s : DState), s.queue = [] → runDepth g f s = s := by
  intro f
  induction f with
  | zero => intro s _; rfl
  | succ n _ =>
    intro s h
    simp [runDepth, h]

theorem runDepth_terminates (g : MultiDiGraph) (hwf : Wf g) :
    ∀ (f : Nat) (s : DState), (∀ u ∈ s.queue, u ∈ g.nodes) → phiD g s ≤ f →
      (runDepth g f s).queue = [] := by
  intro f
  induction f with
  | zero =>
    intro s hinv hphi
    cases hq : s.queue with
    | nil => simp [runDepth, hq]
    | cons c rest =>
      exfalso
      have : 1 ≤ phiD g s := by
        simp only [phiD, hq, List.map_cons, List.sum_cons]
        have : 1 ≤ wD g s.visited c := Nat.one_le_iff_ne_zero.mpr
          (Nat.pos_iff_ne_zero.mp (Nat.pos_pow_of_pos _ (Nat.succ_pos _)))
        omega
      omega
  | succ n ih =>
    intro s hinv hphi
    cases hs : s with
    | mk q d0 vis0 m =>
    cases hq : q with
    | nil => simp [runDepth]
    | cons current rest =>
      have hrun : runDepth g (n + 1) ⟨current :: rest, d0, vis0, m⟩ =
          runDepth g n (depthStep g ⟨current :: rest, d0, vis0, m⟩) := rfl
      rw [hrun]
      rw [hs, hq] at hinv hphi
      have hcur : current ∈ g.nodes := hinv current (List.mem_cons_self _ _)
      have hrest : ∀ u ∈ rest, u ∈ g.nodes :=
        fun u hu => hinv u (List.mem_cons_of_mem _ hu)
      obtain ⟨hlt, hinv'⟩ := depthStep_phi g hwf current rest vis0 d0 m hcur hrest
      exact ih (depthStep g ⟨current :: rest, d0, vis0, m⟩) hinv' (by omega)

theorem runDepth_fuel_irrel (g : MultiDiGraph) :
    ∀ (f f' : Nat) (s : DState), f ≤ f' → (runDepth g f s).queue = [] →
      runDepth g f' s = runDepth g f s := by
  intro f
  induction f with
  | zero =>
    intro f' s _ hterm
    simp only [runDepth] at hterm
    rw [runDepth_queue_empty g f' s hterm]
    rfl
  | succ n ih =>
    intro f' s hle hterm
    cases hq : s.queue with
    | nil =>
      rw [runDepth_queue_empty g (n + 1) s hq, runDepth_queue_empty g f' s hq]
    | cons current rest =>
      obtain ⟨f'', rfl⟩ : ∃ f'', f' = f'' + 1 :=
        ⟨f' - 1, by omega⟩
      have h1 : runDepth g (n + 1) s = runDepth g n (depthStep g s) := by
        simp [runDepth, hq]
      have h2 : runDepth g (f'' + 1) s = runDepth g f'' (depthStep g s) := by
        simp [runDepth, hq]
      rw [h1] at hterm ⊢
      rw [h2]
      exact ih f'' (depthStep g s) (by omega) hterm

theorem phiD_init (g : MultiDiGraph) (root : String) (m : Nat) :
    phiD g (initDState root m) = depthFuel g := by
  have h1 : unvisCount g [] = g.nodes.length := by
    simp [unvisCount]
  simp [phiD, initDState, wD, depthFuel, h1]

/-! ### Termination of the breadth BFS (C2) -/

/-- Termination measure of the breadth loop: twice the number of unvisited
nodes plus the queue length. -/
def phiB (g : MultiDiGraph) (s : BState) : Nat :=
  2 * unvisCount g s.visited + s.queue.length

theorem unvisCount_le_length (g : MultiDiGraph) (vis : List String) :
    unvisCount g vis ≤ g.nodes.length :=
  List.length_filter_le _ _

theorem procSuccsB_bound (g : MultiDiGraph) (hnd : g.nodes.Nodup)
    (level : Nat) (current : String) :
    ∀ (ss vis : List String) (lv : Nat → List String) (q : List (String × Nat)),
      (∀ x ∈ ss, x ∈ g.nodes) →
      (2 * unvisCount g (procSuccsB level current ss vis lv q).1 +
          (procSuccsB level current ss vis lv q).2.2.length ≤
        2 * unvisCount g vis + q.length) ∧
      (∀ p ∈ (procSuccsB level current ss vis lv q).2.2,
        p ∈ q ∨ p.1 ∈ g.nodes) := by
  intro ss
  induction ss with
  | nil =>
    intro vis lv q _
    exact ⟨le_refl _, fun p hp => Or.inl hp⟩
  | cons succ rest ih =>
    intro vis lv q hss
    have hrest : ∀ x ∈ rest, x ∈ g.nodes :=
      fun x hx => hss x (List.mem_cons_of_mem _ hx)
    simp only [procSuccsB]
    split
    · exact ih vis lv q hrest
    · split
      · exact ih vis lv q hrest
      · next hne hnv =>
        have hsucc : succ ∈ g.nodes := hss succ (List.mem_cons_self _ _)
        have hcount : unvisCount g (vis ++ [succ]) + 1 = unvisCount g vis :=
          unvisCount_insert_of_not_mem hnd hsucc hnv
        obtain ⟨ihb, ihm⟩ := ih (vis ++ [succ])
          (updateLevels lv (level + 1) (lv (level + 1) ++ [succ]))
          (q ++ [(succ, level + 1)]) hrest
        constructor
        · calc 2 * unvisCount g (procSuccsB level current rest (vis ++ [succ])
              (updateLevels lv (level + 1) (lv (level + 1) ++ [succ]))
              (q ++ [(succ, level + 1)])).1 +
              (procSuccsB level current rest (vis ++ [succ])
                (updateLevels lv (level + 1) (lv (level + 1) ++ [succ]))
                (q ++ [(succ, level + 1)])).2.2.length ≤
              2 * unvisCount g (vis ++ [succ]) + (q ++ [(succ, level + 1)]).length :=
              ihb
            _ ≤ 2 * unvisCount g vis + q.length := by
              simp only [List.length_append, List.length_singleton]
              omega
        · intro p hp
          rcases ihm p hp with hp' | hp'
          · rcases List.mem_append.mp hp' with hq | hq
            · exact Or.inl hq
            · right
              have : p = (succ, level + 1) := by simpa using hq
              rw [this]
              exact hsucc
          · exact Or.inr hp'

theorem breadthStep_phi (g : MultiDiGraph) (hwf : Wf g)
    (current : String) (level : Nat) (rest : List (String × Nat))
    (lv : Nat → List String) (vis0 : List String) (m : Nat)
    (hrest : ∀ p ∈ rest, p.1 ∈ g.nodes) :
    phiB g (breadthStep g ⟨(current, level) :: rest, lv, vis0, m⟩) <
      phiB g ⟨(current, level) :: rest, lv, vis0, m⟩ ∧
    ∀ p ∈ (breadthStep g ⟨(current, level) :: rest, lv, vis0, m⟩).queue,
      p.1 ∈ g.nodes := by
  have hsuccs : ∀ x ∈ g.successors current, x ∈ g.nodes :=
    successors_mem_nodes hwf current
  obtain ⟨hb, hm⟩ := procSuccsB_bound g hwf.1 level current
    (g.successors current) vis0 lv rest hsuccs
  have hstep : breadthStep g ⟨(current, level) :: rest, lv, vis0, m⟩ =
      ⟨(procSuccsB level current (g.successors current) vis0 lv rest).2.2,
       (procSuccsB level current (g.successors current) vis0 lv rest).2.1,
       (procSuccsB level current (g.successors current) vis0 lv rest).1,
       max m ((procSuccsB level current (g.successors current) vis0 lv rest).2.1
         level).length⟩ := by
    cases hpq : procSuccsB level current (g.successors current) vis0 lv rest with
    | mk vis rest' =>
      cases rest' with
      | mk lv' q' => simp [breadthStep, hpq]
  rw [hstep]
  constructor
  · simp only [phiB, List.length_cons] at hb ⊢
    omega
  · intro p hp
    rcases hm p hp with hp' | hp'
    · exact hrest p hp'
    · exact hp'

theorem runBreadth_queue_empty (g : MultiDiGraph) :
    ∀ (f : Nat) (s : BState), s.queue = [] → runBreadth g f s = s := by
  intro f
  induction f with
  | zero => intro s _; rfl
  | succ n _ =>
    intro s h
    simp [runBreadth, h]

theorem runBreadth_terminates (g : MultiDiGraph) (hwf : Wf g) :
    ∀ (f : Nat) (s : BState), (∀ p ∈ s.queue, p.1 ∈ g.nodes) → phiB g s ≤ f →
      (runBreadth g f s).queue = [] := by
  intro f
  induction f with
  | zero =>
    intro s hinv hphi
    cases hq : s.queue with
    | nil => simp [runBreadth, hq]
    | cons c rest =>
      exfalso
      have : 1 ≤ phiB g s := by
        simp only [phiB, hq, List.length_cons]
        omega
      omega
  | succ n ih =>
    intro s hinv hphi
    cases hs : s with
    | mk q lv vis0 m =>
    cases hq : q with
    | nil => simp [runBreadth]
    | cons cl rest =>
      cases cl with
      | mk current level =>
        have hrun : runBreadth g (n + 1) ⟨(current, level) :: rest, lv, vis0, m⟩ =
            runBreadth g n (breadthStep g ⟨(current, level) :: rest, lv, vis0, m⟩) :=
          rfl
        rw [hrun]
        rw [hs, hq] at hinv hphi
        have hrest : ∀ p ∈ rest, p.1 ∈ g.nodes :=
          fun p hp => hinv p (List.mem_cons_of_mem _ hp)
        obtain ⟨hlt, hinv'⟩ :=
          breadthStep_phi g hwf current level rest lv vis0 m hrest
        exact ih (breadthStep g ⟨(current, level) :: rest, lv, vis0, m⟩)
          hinv' (by omega)

theorem runBreadth_fuel_irrel (g : MultiDiGraph) :
    ∀ (f f' : Nat) (s : BState), f ≤ f' → (runBreadth g f s).queue = [] →
      runBreadth g f' s = runBreadth g f s := by
  intro f
  induction f with
  | zero =>
    intro f' s _ hterm
    simp only [runBreadth] at hterm
    rw [runBreadth_queue_empty g f' s hterm]
    rfl
  | succ n ih =>
    intro f' s hle hterm
    cases hq : s.queue with
    | nil =>
      rw [runBreadth_queue_empty g (n + 1) s hq, runBreadth_queue_empty g f' s hq]
    | cons current rest =>
      obtain ⟨f'', rfl⟩ : ∃ f'', f' = f'' + 1 := ⟨f' - 1, by omega⟩
      have h1 : runBreadth g (n + 1) s = runBreadth g n (breadthStep g s) := by
        simp [runBreadth, hq]
      have h2 : runBreadth g (f'' + 1) s = runBreadth g f'' (breadthStep g s) := by
        simp [runBreadth, hq]
      rw [h1] at hterm ⊢
      rw [h2]
      exact ih f'' (breadthStep g s) (by omega) hterm

theorem phiB_init_le (g : MultiDiGraph) (root : String) (m : Nat) :
    phiB g (initBState root m) ≤ breadthFuel g := by
  simp only [phiB, initBState, breadthFuel, List.length_cons, List.length_nil]
  have := unvisCount_le_length g [root]
  omega

theorem rootNodes_subset (g : MultiDiGraph) : ∀ r ∈ rootNodes g, r ∈ g.nodes := by
  intro r hr
  simp only [rootNodes] at hr
  split at hr
  · exact hr
  · exact List.mem_of_mem_filter hr

/-- C2: on every built graph — cyclic, self-looping or otherwise — the
`while queue:` loops of `calculate_graph_depth` and
`calculate_graph_breadth` empty their queues within the provided fuel
(`depthFuel` / `breadthFuel` bound the number of iterations), i.e. both
computations genuinely terminate, and giving the loops any more fuel cannot
change the state they stop in; the returned metrics are `Nat`s, hence finite
and non-negative. -/
theorem depth_breadth_terminate (td : TraceData) (root : String) (m : Nat)
    (hroot : root ∈ rootNodes (build_graph td)) :
    ((runDepth (build_graph td) (depthFuel (build_graph td))
        (initDState root m)).queue = [] ∧
     ∀ f, depthFuel (build_graph td) ≤ f →
       runDepth (build_graph td) f (initDState root m) =
         runDepth (build_graph td) (depthFuel (build_graph td))
           (initDState root m)) ∧
    ((runBreadth (build_graph td) (breadthFuel (build_graph td))
        (initBState root m)).queue = [] ∧
     ∀ f, breadthFuel (build_graph td) ≤ f →
       runBreadth (build_graph td) f (initBState root m) =
         runBreadth (build_graph td) (breadthFuel (build_graph td))
           (initBState root m)) := by
  have hwf := build_graph_wf td
  have hrootn : root ∈ (build_graph td).nodes := rootNodes_subset _ root hroot
  have hdinv : ∀ u ∈ (initDState root m).queue, u ∈ (build_graph td).nodes := by
    intro u hu
    simp only [initDState, List.mem_singleton] at hu
    rw [hu]
    exact hrootn
  have hbinv : ∀ p ∈ (initBState root m).queue, p.1 ∈ (build_graph td).nodes := by
    intro p hp
    simp only [initBState, List.mem_singleton] at hp
    rw [hp]
    exact hrootn
  have hdterm := runDepth_terminates (build_graph td) hwf
    (depthFuel (build_graph td)) (initDState root m) hdinv
    (le_of_eq (phiD_init (build_graph td) root m))
  have hbterm := runBreadth_terminates (build_graph td) hwf
    (breadthFuel (build_graph td)) (initBState root m) hbinv
    (phiB_init_le (build_graph td) root m)
  exact ⟨⟨hdterm, fun f hf => runDepth_fuel_irrel _ _ f _ hf hdterm⟩,
         ⟨hbterm, fun f hf => runBreadth_fuel_irrel _ _ f _ hf hbterm⟩⟩

/-- A document whose graph has a 2-cycle and a self-loop (reentrancy
shape). -/
def cyclicDoc : TraceData :=
  { trace_summary := some ⟨[
      { from_ := some "a", to_ := some "b", type := some "CALL" },
      { from_ := some "b", to_ := some "a", type := some "CALL" },
      { from_ := some "b", to_ := some "b", type := some "CALL" }]⟩ }

/-- Witness for C2 on the cyclic document. -/
theorem depth_breadth_terminate_witness :
    "a" ∈ rootNodes (build_graph cyclicDoc) ∧
    ((runDepth (build_graph cyclicDoc) (depthFuel (build_graph cyclicDoc))
        (initDState "a" 0)).queue = [] ∧
     (runBreadth (build_graph cyclicDoc) (breadthFuel (build_graph cyclicDoc))
        (initBState "a" 0)).queue = []) :=
  ⟨by decide,
   ((depth_breadth_terminate cyclicDoc "a" 0 (by decide)).1.1),
   ((depth_breadth_terminate cyclicDoc "a" 0 (by decide)).2.1)⟩

/-! ### C3: what `calculate_graph_depth` actually returns

The loop folds `max` over `depths[current]` *at dequeue time*; values written
into `depths` after a node's last dequeue (possible for an already-visited
successor, which is updated but not re-enqueued) are never reported.  The
spec's "maximum recorded value across all nodes and all roots"
(`specRecordedDepth`) therefore differs from the code on graphs where a long
path reaches an already-dequeued node. -/

/-- A DAG where the long path `r → x → p → s` reaches `s` only after `s` was
already dequeued via the short edge `r → s`. -/
def depthGapDoc : TraceData :=
  { trace_summary := some ⟨[
      { from_ := some "r", to_ := some "x", type := some "CALL" },
      { from_ := some "x", to_ := some "p", type := some "CALL" },
      { from_ := some "p", to_ := some "s", type := some "CALL" },
      { from_ := some "r", to_ := some "s", type := some "CALL" }]⟩ }

/-- Counterexample to C3 as stated: on `depthGapDoc` the code returns 2 while
the maximum recorded (final) `depths` value across all nodes and roots is 3. -/
theorem depth_not_max_recorded :
    calculate_graph_depth (build_graph depthGapDoc) = 2 ∧
    specRecordedDepth (build_graph depthGapDoc) = 3 ∧
    calculate_graph_depth (build_graph depthGapDoc) ≠
      specRecordedDepth (build_graph depthGapDoc) := by
  refine ⟨by decide, by decide, ?_⟩
  decide

theorem runDepth_maxDepth_eq_popValues (g : MultiDiGraph) :
    ∀ (f : Nat) (q : List String) (d : String → Nat) (vis : List String) (m : Nat),
      (runDepth g f ⟨q, d, vis, m⟩).maxDepth =
        max m ((depthPopValues g f q d vis).foldr max 0) := by
  intro f
  induction f with
  | zero => intro q d vis m; simp [runDepth, depthPopValues]
  | succ n ih =>
    intro q d vis m
    cases q with
    | nil => simp [runDepth, depthPopValues]
    | cons current rest =>
      have hrun : runDepth g (n + 1) ⟨current :: rest, d, vis, m⟩ =
          runDepth g n (depthStep g ⟨current :: rest, d, vis, m⟩) := rfl
      have hstep : depthStep g ⟨current :: rest, d, vis, m⟩ =
          ⟨(procSuccs (d current) current (pySetAdd vis current)
              (g.successors current) d rest).2,
           (procSuccs (d current) current (pySetAdd vis current)
              (g.successors current) d rest).1,
           pySetAdd vis current, max m (d current)⟩ := by
        cases hpq : procSuccs (d current) current (pySetAdd vis current)
          (g.successors current) d rest with
        | mk d' q' => simp [depthStep, hpq]
      have hpop : depthPopValues g (n + 1) (current :: rest) d vis =
          d current :: depthPopValues g n
            (procSuccs (d current) current (pySetAdd vis current)
              (g.successors current) d rest).2
            (procSuccs (d current) current (pySetAdd vis current)
              (g.successors current) d rest).1
            (pySetAdd vis current) := by
        cases hpq : procSuccs (d current) current (pySetAdd vis current)
          (g.successors current) d rest with
        | mk d' q' => simp [depthPopValues, hpq]
      rw [hrun, hstep, ih, hpop]
      simp only [List.foldr_cons]
      omega

/-- C3 (amended): `calculate_graph_depth` equals the running maximum, over
all roots and over the values `depths[current]` observed at each dequeue of
the work queue — not the maximum over the final recorded values of all
nodes. -/
theorem calculate_graph_depth_eq_popValues (g : MultiDiGraph) :
    calculate_graph_depth g =
      if g.number_of_nodes = 0 then 0
      else
        (rootNodes g).foldl
          (fun m root =>
            max m ((depthPopValues g (depthFuel g) [root]
              (updateFn (fun _ => 0) root 0) []).foldr max 0)) 0 := by
  unfold calculate_graph_depth
  split
  · rfl
  · have hfun : (fun m root =>
        (runDepth g (depthFuel g) (initDState root m)).maxDepth) =
        (fun m root =>
          max m ((depthPopValues g (depthFuel g) [root]
            (updateFn (fun _ => 0) root 0) []).foldr max 0)) := by
      funext m root
      exact runDepth_maxDepth_eq_popValues g (depthFuel g) [root]
        (updateFn (fun _ => 0) root 0) [] m
    rw [hfun]

/-! ### C8: the recursion depth cap -/

mutual

theorem traverse_trace_mem_depth (node : TraceNode) (d : Nat) :
    ∀ c ∈ (traverse_trace node d).1, d ≤ c.depth ∧ c.depth ≤ 50 := by
  cases node with
  | mk ty fr to_a v inp outp gu ga err children =>
    intro c hc
    rw [traverse_trace] at hc
    by_cases hd : d > 50
    · rw [if_pos hd] at hc
      simp at hc
    · rw [if_neg hd] at hc
      simp only at hc
      rcases List.mem_append.mp hc with hc | hc
      · split at hc
        · have : c.depth = d := by
            rcases List.mem_singleton.mp hc with rfl
            rfl
          omega
        · simp at hc
      · have := traverse_trace_children_mem_depth children (d + 1) c hc
        omega

theorem traverse_trace_children_mem_depth (nodes : List TraceNode) (d : Nat) :
    ∀ c ∈ (traverse_trace_children nodes d).1, d ≤ c.depth ∧ c.depth ≤ 50 := by
  cases nodes with
  | nil =>
    intro c hc
    rw [traverse_trace_children] at hc
    simp at hc
  | cons x xs =>
    intro c hc
    rw [traverse_trace_children] at hc
    simp only at hc
    rcases List.mem_append.mp hc with hc | hc
    · exact traverse_trace_mem_depth x d c hc
    · exact traverse_trace_children_mem_depth xs d c hc

end

mutual

theorem traverse_trace_mem_tdepth (node : TraceNode) (d : Nat) :
    ∀ t ∈ (traverse_trace node d).2, d ≤ t.depth ∧ t.depth ≤ 50 := by
  cases node with
  | mk ty fr to_a v inp outp gu ga err children =>
    intro t ht
    rw [traverse_trace] at ht
    by_cases hd : d > 50
    · rw [if_pos hd] at ht
      simp at ht
    · rw [if_neg hd] at ht
      simp only at ht
      rcases List.mem_append.mp ht with ht | ht
      · split at ht
        · split at ht
          · have : t.depth = d := by
              rcases List.mem_singleton.mp ht with rfl
              rfl
            omega
          · simp at ht
        · simp at ht
      · have := traverse_trace_children_mem_tdepth children (d + 1) t ht
        omega

theorem traverse_trace_children_mem_tdepth (nodes : List TraceNode) (d : Nat) :
    ∀ t ∈ (traverse_trace_children nodes d).2, d ≤ t.depth ∧ t.depth ≤ 50 := by
  cases nodes with
  | nil =>
    intro t ht
    rw [traverse_trace_children] at ht
    simp at ht
  | cons x xs =>
    intro t ht
    rw [traverse_trace_children] at ht
    simp only at ht
    rcases List.mem_append.mp ht with ht | ht
    · exact traverse_trace_mem_tdepth x d t ht
    · exact traverse_trace_children_mem_tdepth xs d t ht

end

/-- C8 (amended): every call record emitted by the `traverse_trace`
flattening of `extract_calls_and_transfers` (and every transfer) sits at
nesting depth at most the hard cap of 50 — deeper subtrees are silently
truncated and the traversal never recurses into them.  (The `traverse`
helper of `_extract_calls_from_call_tracer`, by contrast, has no cap; see
the counterexample.) -/
theorem extract_calls_depth_capped (trace : TraceNode) :
    ((extract_calls_and_transfers trace).calls.all
      (fun c => c.depth ≤ 50)) = true ∧
    ((extract_calls_and_transfers trace).transfers.all
      (fun t => t.depth ≤ 50)) = true := by
  constructor
  · rw [List.all_eq_true]
    intro c hc
    simp only [extract_calls_and_transfers] at hc
    have := (traverse_trace_mem_depth trace 0 c hc).2
    simpa using this
  · rw [List.all_eq_true]
    intro t ht
    simp only [extract_calls_and_transfers] at ht
    have := (traverse_trace_mem_tdepth trace 0 t ht).2
    simpa using this

/-- A nested call tree: a single chain of CALL nodes of the given depth. -/
def deepNode : Nat → TraceNode
  | 0 => .mk (some "CALL") (some "a") (some "b") none none none none none none []
  | n + 1 => .mk (some "CALL") (some "a") (some "b") none none none none none none
      [deepNode n]

/-- Counterexample to C8 as stated: on a chain nested 61 levels deep, the
`traverse` helper of `_extract_calls_from_call_tracer` processes ten nodes at
nesting depth greater than 50 (it has no cap and emits all 61 records),
whereas `extract_calls_and_transfers` truncates to the 51 records at depth
≤ 50. -/
theorem call_tracer_traverse_unbounded :
    ((extract_calls_from_call_tracer (fun s => s) (deepNode 60)).filter
      (fun c => 50 < c.depth)).length = 10 ∧
    (extract_calls_from_call_tracer (fun s => s) (deepNode 60)).length = 61 ∧
    (extract_calls_and_transfers (deepNode 60)).calls.length = 51 := by
  refine ⟨?_, ?_, ?_⟩ <;> decide

/-! ### C7: set-iteration order reaches the output

`generate_description` joins `set(delegatecall_info)` (and slices
`list(funcs)[:3]`) directly from Python `set`s of strings.  CPython iterates
such sets in an order determined by the per-process string hash seed
(randomised by default), so two runs of the same program on the same input
can emit these fragments in different orders.  The embedding exposes that
order as the `setOrder` oracle; both orders used below are permutations of
the set's contents, i.e. both are orders a real run can produce. -/

/-- A document with two DELEGATECALLs to two different annotated targets, so
`set(delegatecall_info)` has two elements. -/
def twoDelegateDoc : TraceData :=
  { trace_summary := some ⟨[
      { from_ := some "0xaaaaaaaaaaaaaaaaaaaaaaaaaaaaaaaaaaaaaaaa",
        to_ := some "0xd9db270c1b5e3bd161e8c8503c55ceabee709552",
        type := some "DELEGATECALL" },
      { from_ := some "0xaaaaaaaaaaaaaaaaaaaaaaaaaaaaaaaaaaaaaaaa",
        to_ := some "0xf07ded9dc292157749b6fd268e37df6ea38395b9",
        type := some "DELEGATECALL" }]⟩ }

set_option maxRecDepth 4096 in
/-- C7 fails on the code: with two annotated delegatecall targets the output
string depends on the set-iteration order — two legitimate orders (both
permutations of the set) yield different strings, so two invocations under
different hash seeds are not character-identical. -/
theorem generate_description_depends_on_set_order :
    generate_description (build_graph twoDelegateDoc) twoDelegateDoc
        (fun l => l) ≠
      generate_description (build_graph twoDelegateDoc) twoDelegateDoc
        List.reverse ∧
    (∀ l : List String, List.Perm (List.reverse l) l) :=
  ⟨by decide, fun l => List.reverse_perm l⟩

/-! ### C4: strictly linear chains -/

/-- The call list `A→B→C→…` over the given address list. -/
def chainCalls (addrs : List String) : List CallEntry :=
  (addrs.zip addrs.tail).map
    (fun p => { from_ := some p.1, to_ := some p.2, type := some "CALL" })

/-- A trace document whose calls form a strictly linear chain. -/
def chainDoc (addrs : List String) : TraceData :=
  { trace_summary := some ⟨chainCalls addrs⟩ }

/-- The edges `build_graph` produces from a chain of lowercase addresses. -/
def chainEdges (addrs : List String) : List Edge :=
  (addrs.zip addrs.tail).map (fun p => ⟨p.1, p.2, "CALL", "unknown", 0, 0⟩)

theorem chainEdges_cons₂ (a b : String) (t : List String) :
    chainEdges (a :: b :: t) =
      ⟨a, b, "CALL", "unknown", 0, 0⟩ :: chainEdges (b :: t) := rfl

theorem chainEdges_src_filter_nil (x : String) :
    ∀ addrs : List String, x ∉ addrs.dropLast →
      (chainEdges addrs).filter (fun e => e.src = x) = [] := by
  intro addrs
  induction addrs with
  | nil => intro _; rfl
  | cons a t ih =>
    cases t with
    | nil => intro _; rfl
    | cons b t' =>
      intro hx
      rw [List.dropLast_cons₂] at hx
      rw [chainEdges_cons₂, List.filter_cons]
      have hxa : ¬(a = x) := by
        intro h
        exact hx (by simp [h])
      simp only [hxa, decide_False, if_neg]
      exact ih (fun hmem => hx (List.mem_cons_of_mem _ hmem))
      |>.symm ▸ rfl

theorem chainEdges_src_filter_pair :
    ∀ addrs : List String, addrs.Nodup →
      ∀ x y, (x, y) ∈ addrs.zip addrs.tail →
        (chainEdges addrs).filter (fun e => e.src = x) =
          [⟨x, y, "CALL", "unknown", 0, 0⟩] := by
  intro addrs
  induction addrs with
  | nil => intro _ x y h; simp at h
  | cons a t ih =>
    cases t with
    | nil => intro _ x y h; simp at h
    | cons b t' =>
      intro hnd x y hmem
      have hzip : (a :: b :: t').zip (a :: b :: t').tail =
          (a, b) :: (b :: t').zip t' := rfl
      rw [hzip] at hmem
      rcases List.mem_cons.mp hmem with heq | hmem'
      · obtain ⟨rfl, rfl⟩ := Prod.mk.injEq x y a b ▸ heq
        rw [chainEdges_cons₂, List.filter_cons]
        have hnotin : x ∉ (y :: t').dropLast := by
          have hxa : x ∉ y :: t' := (List.nodup_cons.mp hnd).1
          intro hc
          exact hxa (List.dropLast_sublist _ |>.mem hc)
        rw [chainEdges_src_filter_nil x (y :: t') hnotin]
        simp
      · have hxt : x ∈ b :: t' := (List.of_mem_zip hmem').1
        have hxa : ¬(a = x) := by
          intro h
          exact (List.nodup_cons.mp hnd).1 (h ▸ hxt)
        rw [chainEdges_cons₂, List.filter_cons]
        simp only [hxa, decide_False, if_neg]
        exact ih (List.nodup_cons.mp hnd).2 x y hmem'

theorem chainEdges_dst_filter_nil (x : String) :
    ∀ addrs : List String, x ∉ addrs.tail →
      (chainEdges addrs).filter (fun e => e.dst = x) = [] := by
  intro addrs
  induction addrs with
  | nil => intro _; rfl
  | cons a t ih =>
    cases t with
    | nil => intro _; rfl
    | cons b t' =>
      intro hx
      simp only [List.tail_cons] at hx
      rw [chainEdges_cons₂, List.filter_cons]
      have hxb : ¬(b = x) := by
        intro h
        exact hx (by simp [h])
      simp only [hxb, decide_False, if_neg]
      have : x ∉ (b :: t').tail := by
        simp only [List.tail_cons]
        intro hc
        exact hx (List.mem_cons_of_mem _ hc)
      exact ih this

theorem chainEdges_dst_exists (x : String) :
    ∀ addrs : List String, x ∈ addrs.tail →
      ∃ e ∈ chainEdges addrs, e.dst = x := by
  intro addrs
  induction addrs with
  | nil => intro h; simp at h
  | cons a t ih =>
    cases t with
    | nil => intro h; simp at h
    | cons b t' =>
      intro hx
      simp only [List.tail_cons] at hx
      rcases List.mem_cons.mp hx with rfl | hx'
      · exact ⟨⟨a, x, "CALL", "unknown", 0, 0⟩, List.mem_cons_self _ _, rfl⟩
      · have hx'' : x ∈ (b :: t').tail := by simpa using hx'
        obtain ⟨e, he, hdst⟩ := ih hx''
        exact ⟨e, List.mem_cons_of_mem _ he, hdst⟩

theorem foldSucc_filter_nil (u : String) :
    ∀ (es : List Edge) (acc : List String),
      es.filter (fun e => e.src = u) = [] →
      es.foldl (fun acc e =>
        if e.src = u ∧ e.dst ∉ acc then acc ++ [e.dst] else acc) acc = acc := by
  intro es
  induction es with
  | nil => intro acc _; rfl
  | cons e rest ih =>
    intro acc hf
    rw [List.filter_cons] at hf
    split at hf
    · exact absurd hf (by simp)
    · next hne =>
      simp only [List.foldl_cons]
      have hnu : ¬(e.src = u) := by simpa using hne
      rw [if_neg (by intro hc; exact hnu hc.1)]
      exact ih acc hf

theorem successors_of_filter_nil (g : MultiDiGraph) (u : String)
    (h : g.edges.filter (fun e => e.src = u) = []) :
    g.successors u = [] :=
  foldSucc_filter_nil u g.edges [] h

theorem successors_of_filter_pair (g : MultiDiGraph) (u : String) (e₀ : Edge)
    (h : g.edges.filter (fun e => e.src = u) = [e₀]) :
    g.successors u = [e₀.dst] := by
  have key : ∀ (es : List Edge) (acc : List String),
      es.filter (fun e => e.src = u) = [e₀] → e₀.dst ∉ acc →
      es.foldl (fun acc e =>
        if e.src = u ∧ e.dst ∉ acc then acc ++ [e.dst] else acc) acc =
        acc ++ [e₀.dst] := by
    intro es
    induction es with
    | nil => intro acc hf _; simp at hf
    | cons e rest ih =>
      intro acc hf hdst
      rw [List.filter_cons] at hf
      split at hf
      · next hsrc =>
        have hsrc' : e.src = u := by simpa using hsrc
        have he₀ : e = e₀ ∧ rest.filter (fun e => e.src = u) = [] := by
          constructor
          · exact (List.cons.injEq .. ▸ hf).1
          · exact (List.cons.injEq .. ▸ hf).2
        obtain ⟨rfl, hrest⟩ := he₀
        simp only [List.foldl_cons]
        rw [if_pos ⟨hsrc', hdst⟩]
        exact foldSucc_filter_nil u rest (acc ++ [e.dst]) hrest
      · next hne =>
        simp only [List.foldl_cons]
        have hnu : ¬(e.src = u) := by simpa using hne
        rw [if_neg (by intro hc; exact hnu hc.1)]
        exact ih acc hf hdst
  exact key g.edges [] h (by simp)

/-- The chain-shape hypothesis on successor lists: each element's only
successor is the next one, the last has none. -/
def ChainSucc (g : MultiDiGraph) : List String → Prop
  | [] => True
  | [x] => g.successors x = []
  | x :: y :: t => g.successors x = [y] ∧ ChainSucc g (y :: t)

theorem mem_zip_of_append (x y : String) :
    ∀ (pre t : List String), (x, y) ∈ (pre ++ x :: y :: t).zip (pre ++ x :: y :: t).tail := by
  intro pre
  induction pre with
  | nil =>
    intro t
    simp [List.zip_cons_cons]
  | cons a pre' ih =>
    intro t
    have hne : pre' ++ x :: y :: t ≠ [] := by simp
    obtain ⟨h, l, hl⟩ : ∃ h l, pre' ++ x :: y :: t = h :: l := by
      cases hpe : pre' ++ x :: y :: t with
      | nil => exact absurd hpe hne
      | cons h l => exact ⟨h, l, rfl⟩
    have : (a :: (pre' ++ x :: y :: t)).zip (a :: (pre' ++ x :: y :: t)).tail =
        (a, h) :: (h :: l).zip l := by
      rw [hl]
      rfl
    rw [List.cons_append, this]
    refine List.mem_cons_of_mem _ ?_
    have := ih t
    rw [hl] at this
    simpa using this

theorem chainSucc_of_suffix (g : MultiDiGraph) (addrs : List String)
    (hg : g.edges = chainEdges addrs) (hnd : addrs.Nodup) :
    ∀ t : List String, t.IsSuffix addrs → ChainSucc g t := by
  intro t
  induction t with
  | nil => intro _; trivial
  | cons x t' ih =>
    intro hsuf
    cases t' with
    | nil =>
      -- x is the last element of addrs: no chain edge leaves it
      obtain ⟨pre, hpre⟩ := hsuf
      have hx : x ∉ addrs.dropLast := by
        rw [← hpre, List.dropLast_concat]
        have := hpre ▸ hnd
        rw [List.nodup_append] at this
        intro hc
        exact this.2.2 hc (List.mem_singleton_self x)
      simp only [ChainSucc]
      apply successors_of_filter_nil
      rw [hg]
      exact chainEdges_src_filter_nil x addrs hx
    | cons y t'' =>
      obtain ⟨pre, hpre⟩ := hsuf
      constructor
      · apply successors_of_filter_pair g x ⟨x, y, "CALL", "unknown", 0, 0⟩
        rw [hg]
        apply chainEdges_src_filter_pair addrs hnd x y
        rw [← hpre]
        exact mem_zip_of_append x y pre t''
      · apply ih
        refine ⟨pre ++ [x], ?_⟩
        rw [← hpre]
        simp

theorem chain_depth_run (g : MultiDiGraph) :
    ∀ (rest : List String) (cur : String) (d : String → Nat)
      (vis : List String) (m f : Nat),
      rest.length + 1 ≤ f →
      (cur :: rest).Nodup →
      (∀ x ∈ cur :: rest, x ∉ vis) →
      ChainSucc g (cur :: rest) →
      (runDepth g f ⟨[cur], d, vis, m⟩).maxDepth = max m (d cur + rest.length) := by
  intro rest
  induction rest with
  | nil =>
    intro cur d vis m f hf _ _ hcs
    obtain ⟨f', rfl⟩ : ∃ f', f = f' + 1 := ⟨f - 1, by omega⟩
    have hsucc : g.successors cur = [] := hcs
    have hstep : depthStep g ⟨[cur], d, vis, m⟩ =
        ⟨[], d, pySetAdd vis cur, max m (d cur)⟩ := by
      simp [depthStep, hsucc, procSuccs]
    have : runDepth g (f' + 1) ⟨[cur], d, vis, m⟩ =
        runDepth g f' (depthStep g ⟨[cur], d, vis, m⟩) := rfl
    rw [this, hstep, runDepth_queue_empty g f' _ rfl]
    simp
  | cons b rest' ih =>
    intro cur d vis m f hf hnd hnv hcs
    obtain ⟨f', rfl⟩ : ∃ f', f = f' + 1 := ⟨f - 1, by omega⟩
    obtain ⟨hsucc, hcs'⟩ := hcs
    have hbc : b ≠ cur := by
      intro h
      exact (List.nodup_cons.mp hnd).1 (h ▸ List.mem_cons_self b rest')
    have hbvis : b ∉ vis := hnv b (List.mem_cons_of_mem _ (List.mem_cons_self b rest'))
    have hcv : cur ∉ vis := hnv cur (List.mem_cons_self _ _)
    have hbvis' : b ∉ pySetAdd vis cur := by
      rw [pySetAdd_of_not_mem hcv]
      simp [hbvis, hbc]
    have hproc : procSuccs (d cur) cur (pySetAdd vis cur) [b] d [] =
        (updateFn d b (d cur + 1), [b]) := by
      simp only [procSuccs]
      rw [if_neg hbc, if_neg (by intro hc; exact hbvis' hc.1),
        if_neg hbvis']
      rfl
    have hstep : depthStep g ⟨[cur], d, vis, m⟩ =
        ⟨[b], updateFn d b (d cur + 1), pySetAdd vis cur, max m (d cur)⟩ := by
      simp only [depthStep, hsucc, hproc]
    have hrun : runDepth g (f' + 1) ⟨[cur], d, vis, m⟩ =
        runDepth g f' (depthStep g ⟨[cur], d, vis, m⟩) := rfl
    rw [hrun, hstep]
    have hnd' : (b :: rest').Nodup := (List.nodup_cons.mp hnd).2
    have hnv' : ∀ x ∈ b :: rest', x ∉ pySetAdd vis cur := by
      intro x hx
      rw [pySetAdd_of_not_mem hcv]
      have hxvis : x ∉ vis := hnv x (List.mem_cons_of_mem _ hx)
      have hxcur : x ≠ cur := by
        intro h
        exact (List.nodup_cons.mp hnd).1 (h ▸ hx)
      simp [hxvis, hxcur]
    have := ih b (updateFn d b (d cur + 1)) (pySetAdd vis cur)
      (max m (d cur)) f' (by simpa using Nat.lt_of_succ_le hf) hnd' hnv' hcs'
    rw [this]
    have hupd : updateFn d b (d cur + 1) b = d cur + 1 := by
      simp [updateFn]
    rw [hupd]
    simp only [List.length_cons]
    omega

theorem chain_breadth_run (g : MultiDiGraph) :
    ∀ (rest : List String) (cur : String) (level : Nat)
      (lv : Nat → List String) (vis : List String) (m f : Nat),
      rest.length + 1 ≤ f →
      (cur :: rest).Nodup →
      (∀ x ∈ rest, x ∉ vis) →
      (lv level).length = 1 →
      (∀ l, level < l → lv l = []) →
      ChainSucc g (cur :: rest) →
      (runBreadth g f ⟨[(cur, level)], lv, vis, m⟩).maxBreadth = max m 1 := by
  intro rest
  induction rest with
  | nil =>
    intro cur level lv vis m f hf _ _ hlv _ hcs
    obtain ⟨f', rfl⟩ : ∃ f', f = f' + 1 := ⟨f - 1, by omega⟩
    have hsucc : g.successors cur = [] := hcs
    have hstep : breadthStep g ⟨[(cur, level)], lv, vis, m⟩ =
        ⟨[], lv, vis, max m (lv level).length⟩ := by
      simp [breadthStep, hsucc, procSuccsB]
    have hrun : runBreadth g (f' + 1) ⟨[(cur, level)], lv, vis, m⟩ =
        runBreadth g f' (breadthStep g ⟨[(cur, level)], lv, vis, m⟩) := rfl
    rw [hrun, hstep, runBreadth_queue_empty g f' _ rfl, hlv]
  | cons b rest' ih =>
    intro cur level lv vis m f hf hnd hnv hlv hlv' hcs
    obtain ⟨f', rfl⟩ : ∃ f', f = f' + 1 := ⟨f - 1, by omega⟩
    obtain ⟨hsucc, hcs'⟩ := hcs
    have hbc : b ≠ cur := by
      intro h
      exact (List.nodup_cons.mp hnd).1 (h ▸ List.mem_cons_self b rest')
    have hbvis : b ∉ vis := hnv b (List.mem_cons_self b rest')
    have hproc : procSuccsB level cur [b] vis lv [] =
        (vis ++ [b],
         updateLevels lv (level + 1) (lv (level + 1) ++ [b]),
         [(b, level + 1)]) := by
      simp only [procSuccsB]
      rw [if_neg hbc, if_neg hbvis]
      rfl
    have hstep : breadthStep g ⟨[(cur, level)], lv, vis, m⟩ =
        ⟨[(b, level + 1)],
         updateLevels lv (level + 1) (lv (level + 1) ++ [b]),
         vis ++ [b],
         max m ((updateLevels lv (level + 1) (lv (level + 1) ++ [b])) level).length⟩ := by
      simp only [breadthStep, hsucc, hproc]
    have hlev_ne : level ≠ level + 1 := by omega
    have hcurlv : (updateLevels lv (level + 1) (lv (level + 1) ++ [b])) level =
        lv level := by
      simp [updateLevels, hlev_ne]
    have hrun : runBreadth g (f' + 1) ⟨[(cur, level)], lv, vis, m⟩ =
        runBreadth g f' (breadthStep g ⟨[(cur, level)], lv, vis, m⟩) := rfl
    rw [hrun, hstep]
    have hnd' : (b :: rest').Nodup := (List.nodup_cons.mp hnd).2
    have hnv' : ∀ x ∈ rest', x ∉ vis ++ [b] := by
      intro x hx
      have hxvis : x ∉ vis := hnv x (List.mem_cons_of_mem _ hx)
      have hxb : x ≠ b := by
        intro h
        exact (List.nodup_cons.mp hnd').1 (h ▸ hx)
      simp [hxvis, hxb]
    have hlvnew : ((updateLevels lv (level + 1) (lv (level + 1) ++ [b])) (level + 1)).length = 1 := by
      rw [hlv' (level + 1) (by omega)] at *
      simp [updateLevels]
    have hlvnew' : ∀ l, level + 1 < l →
        (updateLevels lv (level + 1) (lv (level + 1) ++ [b])) l = [] := by
      intro l hl
      have : l ≠ level + 1 := by omega
      simp [updateLevels, this]
      exact hlv' l (by omega)
    have := ih b (level + 1)
      (updateLevels lv (level + 1) (lv (level + 1) ++ [b]))
      (vis ++ [b])
      (max m ((updateLevels lv (level + 1) (lv (level + 1) ++ [b])) level).length)
      f' (by simpa using Nat.lt_of_succ_le hf) hnd' hnv' hlvnew hlvnew' hcs'
    rw [this, hcurlv, hlv]
    omega

theorem filter_eq_singleton_of_unique :
    ∀ (l : List String) (p : String → Bool) (a : String), l.Nodup → a ∈ l →
      p a = true → (∀ x ∈ l, p x = true → x = a) → l.filter p = [a] := by
  intro l
  induction l with
  | nil => intro p a _ ha; simp at ha
  | cons c rest ih =>
    intro p a hnd ha hpa huniq
    rw [List.filter_cons]
    rcases List.mem_cons.mp ha with rfl | ha'
    · rw [if_pos (by simpa using hpa)]
      have hrest : rest.filter p = [] := by
        rw [List.filter_eq_nil_iff]
        intro x hx hpx
        have := huniq x (List.mem_cons_of_mem _ hx) hpx
        subst this
        exact absurd hx (List.nodup_cons.mp hnd).1
      rw [hrest]
    · have hca : c ≠ a := by
        intro h
        exact (List.nodup_cons.mp hnd).1 (h ▸ ha')
      have hpc : ¬(p c = true) := by
        intro hc
        exact hca (huniq c (List.mem_cons_self _ _) hc)
      rw [if_neg (by simpa using hpc)]
      exact ih p a (List.nodup_cons.mp hnd).2 ha' hpa
        (fun x hx hpx => huniq x (List.mem_cons_of_mem _ hx) hpx)

theorem length_eq_of_nodup_of_mem_iff {l₁ l₂ : List String}
    (h1 : l₁.Nodup) (h2 : l₂.Nodup) (h : ∀ a, a ∈ l₁ ↔ a ∈ l₂) :
    l₁.length = l₂.length := by
  have hfs : l₁.toFinset = l₂.toFinset := by
    ext a
    simp [h a]
  calc l₁.length = l₁.toFinset.card := (List.toFinset_card_of_nodup h1).symm
    _ = l₂.toFinset.card := by rw [hfs]
    _ = l₂.length := List.toFinset_card_of_nodup h2

theorem mem_endpoint_of_chain :
    ∀ addrs : List String, 2 ≤ addrs.length →
      ∀ a ∈ addrs, ∃ p ∈ addrs.zip addrs.tail, a = p.1 ∨ a = p.2 := by
  intro addrs
  induction addrs with
  | nil => intro h; simp at h
  | cons x t ih =>
    cases t with
    | nil => intro h; simp at h
    | cons y t' =>
      intro _ a ha
      have hzip : (x :: y :: t').zip (x :: y :: t').tail =
          (x, y) :: (y :: t').zip t' := rfl
      rcases List.mem_cons.mp ha with rfl | ha'
      · exact ⟨(a, y), by rw [hzip]; exact List.mem_cons_self _ _, Or.inl rfl⟩
      · cases t' with
        | nil =>
          have : a = y := by simpa using ha'
          exact ⟨(x, y), by rw [hzip]; exact List.mem_cons_self _ _, Or.inr this⟩
        | cons z t'' =>
          obtain ⟨p, hp, hor⟩ := ih (by simp) a ha'
          exact ⟨p, by rw [hzip]; exact List.mem_cons_of_mem _ hp, hor⟩

theorem chain_build_facts (addrs : List String)
    (h1 : addrs.Nodup) (h2 : ∀ a ∈ addrs, pyLower a = a)
    (h3 : ∀ a ∈ addrs, a ≠ "") (h4 : 2 ≤ addrs.length) :
    (build_graph (chainDoc addrs)).edges = chainEdges addrs ∧
    (∀ a, a ∈ (build_graph (chainDoc addrs)).nodes ↔ a ∈ addrs) ∧
    (build_graph (chainDoc addrs)).nodes.length = addrs.length := by
  have hcalls : getCalls (chainDoc addrs) = chainCalls addrs := rfl
  have hzipmem : ∀ p ∈ addrs.zip addrs.tail, p.1 ∈ addrs ∧ p.2 ∈ addrs := by
    intro p hp
    obtain ⟨hl, hr⟩ := List.of_mem_zip hp
    exact ⟨hl, (List.tail_sublist addrs).subset hr⟩
  have hvalid : ValidCalls (getCalls (chainDoc addrs)) := by
    rw [hcalls]
    intro c hc
    obtain ⟨p, hp, rfl⟩ := List.mem_map.mp hc
    obtain ⟨hl, hr⟩ := hzipmem p hp
    exact ⟨h3 p.1 hl, h3 p.2 hr⟩
  obtain ⟨hedges, _, hnodup, hmem, _⟩ :=
    build_graph_counts_and_nodes (chainDoc addrs) hvalid
  have hedges' : (build_graph (chainDoc addrs)).edges = chainEdges addrs := by
    rw [hedges, hcalls]
    unfold chainCalls chainEdges
    rw [List.map_map]
    apply List.map_eq_map_iff.mpr
    intro p hp
    obtain ⟨hl, hr⟩ := hzipmem p hp
    simp [mkEdgeOf, Function.comp, h2 p.1 hl, h2 p.2 hr]
  have hmem' : ∀ a, a ∈ (build_graph (chainDoc addrs)).nodes ↔ a ∈ addrs := by
    intro a
    rw [hmem a, hcalls]
    constructor
    · rintro ⟨c, hc, hor⟩
      obtain ⟨p, hp, rfl⟩ := List.mem_map.mp hc
      obtain ⟨hl, hr⟩ := hzipmem p hp
      rcases hor with rfl | rfl
      · simpa [h2 p.1 hl] using hl
      · simpa [h2 p.2 hr] using hr
    · intro ha
      obtain ⟨p, hp, hor⟩ := mem_endpoint_of_chain addrs h4 a ha
      obtain ⟨hl, hr⟩ := hzipmem p hp
      refine ⟨_, List.mem_map_of_mem _ hp, ?_⟩
      rcases hor with rfl | rfl
      · exact Or.inl (by simp [h2 p.1 hl])
      · exact Or.inr (by simp [h2 p.2 hr])
  exact ⟨hedges', hmem',
    length_eq_of_nodup_of_mem_iff hnodup h1 hmem'⟩

/-- C4: a strictly linear chain of `L` calls over `L + 1` distinct
(lowercase, non-empty) addresses yields graph depth exactly `L` and graph
breadth exactly `1`. -/
theorem chain_depth_and_breadth (addrs : List String)
    (h1 : addrs.Nodup) (h2 : ∀ a ∈ addrs, pyLower a = a)
    (h3 : ∀ a ∈ addrs, a ≠ "") (h4 : 2 ≤ addrs.length) :
    calculate_graph_depth (build_graph (chainDoc addrs)) = addrs.length - 1 ∧
    calculate_graph_breadth (build_graph (chainDoc addrs)) = 1 := by
  obtain ⟨hedges, hmem, hlen⟩ := chain_build_facts addrs h1 h2 h3 h4
  set g := build_graph (chainDoc addrs) with hg
  cases haddrs : addrs with
  | nil => rw [haddrs] at h4; simp at h4
  | cons a0 tail =>
    rw [haddrs] at h1 hedges hmem hlen h4
    have hnodupn : g.nodes.Nodup := (build_graph_wf (chainDoc addrs)).1
    have ha0 : a0 ∈ g.nodes := (hmem a0).mpr (List.mem_cons_self _ _)
    have hdeg0 : g.in_degree a0 = 0 := by
      unfold MultiDiGraph.in_degree
      rw [hedges, chainEdges_dst_filter_nil a0 (a0 :: tail)
        (by simpa using (List.nodup_cons.mp h1).1)]
      rfl
    have hdegpos : ∀ x ∈ g.nodes, g.in_degree x = 0 → x = a0 := by
      intro x hx hdx
      by_contra hne
      have hxaddrs : x ∈ a0 :: tail := (hmem x).mp hx
      have hxtail : x ∈ tail := by
        rcases List.mem_cons.mp hxaddrs with rfl | h
        · exact absurd rfl hne
        · exact h
      obtain ⟨e, he, hdst⟩ := chainEdges_dst_exists x (a0 :: tail) (by simpa using hxtail)
      have : e ∈ g.edges.filter (fun e => e.dst = x) := by
        rw [List.mem_filter, hedges]
        exact ⟨he, by simpa using hdst⟩
      have : 0 < g.in_degree x := by
        unfold MultiDiGraph.in_degree
        exact List.length_pos.mpr (List.ne_nil_of_mem this)
      omega
    have hroots : rootNodes g = [a0] := by
      unfold rootNodes
      have hfil : g.nodes.filter (fun n => g.in_degree n = 0) = [a0] := by
        apply filter_eq_singleton_of_unique g.nodes _ a0 hnodupn ha0
        · simpa using hdeg0
        · intro x hx hpx
          exact hdegpos x hx (by simpa using hpx)
      rw [hfil]
      rfl
    have hN : g.nodes.length = tail.length + 1 := by
      rw [hlen]
      rfl
    have hchain : ChainSucc g (a0 :: tail) := by
      apply chainSucc_of_suffix g (a0 :: tail) hedges h1
      exact List.suffix_refl _
    have hnonzero : ¬(g.number_of_nodes = 0) := by
      unfold MultiDiGraph.number_of_nodes
      omega
    constructor
    · unfold calculate_graph_depth
      rw [if_neg hnonzero, hroots]
      simp only [List.foldl_cons, List.foldl_nil]
      have hfuel : tail.length + 1 ≤ depthFuel g := by
        unfold depthFuel
        calc tail.length + 1 = g.nodes.length := hN.symm
          _ ≤ g.nodes.length + 1 := Nat.le_succ _
          _ = (g.nodes.length + 1) ^ 1 := (pow_one _).symm
          _ ≤ (g.nodes.length + 1) ^ (2 * g.nodes.length) :=
            Nat.pow_le_pow_right (Nat.succ_le_succ (Nat.zero_le _)) (by omega)
      have := chain_depth_run g tail a0 (updateFn (fun _ => 0) a0 0) [] 0
        (depthFuel g) hfuel h1 (by simp) hchain
      rw [initDState, this]
      simp [updateFn]
    · unfold calculate_graph_breadth
      rw [if_neg hnonzero, hroots]
      simp only [List.foldl_cons, List.foldl_nil]
      have hfuel : tail.length + 1 ≤ breadthFuel g := by
        unfold breadthFuel
        omega
      have hnv : ∀ x ∈ tail, x ∉ ([a0] : List String) := by
        intro x hx
        have : x ≠ a0 := by
          intro h
          exact (List.nodup_cons.mp h1).1 (h ▸ hx)
        simp [this]
      have := chain_breadth_run g tail a0 0
        (fun l => if l = 0 then [a0] else []) [a0] 0 (breadthFuel g)
        hfuel h1 hnv (by simp) (fun l hl => by simp [Nat.pos_iff_ne_zero.mp hl])
        hchain
      rw [initBState, this]
      simp

/-- Witness for C4: the chain a → b → c (L = 2). -/
theorem chain_depth_and_breadth_witness :
    (["a", "b", "c"] : List String).Nodup ∧
    (∀ a ∈ (["a", "b", "c"] : List String), pyLower a = a) ∧
    (∀ a ∈ (["a", "b", "c"] : List String), a ≠ "") ∧
    2 ≤ (["a", "b", "c"] : List String).length ∧
    (calculate_graph_depth (build_graph (chainDoc ["a", "b", "c"])) = 2 ∧
     calculate_graph_breadth (build_graph (chainDoc ["a", "b", "c"])) = 1) :=
  ⟨by decide, by decide, by decide, by decide,
   chain_depth_and_breadth ["a", "b", "c"] (by decide) (by decide) (by decide)
     (by decide)⟩
